import Mathlib

/-!
Verification of the gohpc repository (github.com/qcserestipy/gohpc).

This file shallowly embeds the parts of the repository that the claims talk
about:

* `pkg/workerpool/pool.go` — the context-aware `WorkerPoolExecutor.Run`.
  Its concurrent execution is modelled as a small-step transition system
  (`GoHPC.PStep`) over configurations (`GoHPC.PConfig`) that mirror the Go
  code: one dispatcher goroutine feeding an unbuffered task channel, `W`
  worker goroutines, a result channel buffered to the input length, a
  goroutine closing the result channel after all workers finish, and the
  collector loop run by the caller.  Cancellation of the context is an
  environment step that can fire at any time.
* the earlier context-aware variant of `Run` (with wrapped errors) and the
  draft variant without a context parameter, both present in the repository
  sources; the draft variant is modelled as its own transition system
  (`GoHPC.DStep`), the collection loops of both context-aware variants are
  additionally modelled as pure functions over the stream of channel events
  the collector observes (`GoHPC.poolCollect`, `GoHPC.ctxCollect`).
* the functional-options configuration (`PoolOptions`, `WithWorkers`, `New`).
* `pkg/serve/job.go` — the in-memory job registry (`NewJob`, `jobExists`,
  the POST /jobs handler `postJobs`, GET handlers `listJobs` / `getJob`).
* the work-splitting loop shared by the compute-server examples
  (`splitTasks`).
-/

set_option maxHeartbeats 1000000

namespace GoHPC

/-! ## Functional options (pool.go lines 11-46)

`runtime.NumCPU()` is a parameter `numCPU` of the model.  Worker counts are
Go `int`s, so they are modelled as `Int` (they may be non-positive). -/

structure PoolOptions where
  NumWorkers : Int
deriving DecidableEq, Repr

/-- `defaultOpts` from pool.go: the worker count defaults to `runtime.NumCPU()`. -/
def defaultOpts (numCPU : Int) : PoolOptions :=
  { NumWorkers := numCPU }

/-- `WithWorkers` from pool.go: sets `opts.NumWorkers = num`, unconditionally. -/
def WithWorkers (num : Int) : PoolOptions → PoolOptions :=
  fun opts => { opts with NumWorkers := num }

/-- `New` from pool.go: starts from `defaultOpts()` and applies each option in order. -/
def New (numCPU : Int) (opts : List (PoolOptions → PoolOptions)) : PoolOptions :=
  opts.foldl (fun o fn => fn o) (defaultOpts numCPU)

/-! ## Errors returned by the two context-aware `Run` variants -/

/-- The errors a context-aware `Run` can produce.
`ctxCanceled` is the bare `ctx.Err()` returned by pool.go;
`exitedEarly` is the wrapped `"worker pool exited early: %w"` error and
`incomplete got want` the `"worker pool did not return all results: got %d of %d"`
error of the earlier context-aware variant. -/
inductive RunError where
  | ctxCanceled
  | exitedEarly
  | incomplete (got : Nat) (want : Nat)
deriving DecidableEq, Repr

/-! ## Small-step model of `Run` from pkg/workerpool/pool.go -/

/-- The state of one worker goroutine.
`idle` = blocked in the outer select; `pulled i t` = just received task
`(i, t)` from the task channel, before the second cancellation check;
`computed i out` = has computed `out = fn(t)` and is at the send select;
`done` = the goroutine has returned. -/
inductive WState (T R : Type) where
  | idle
  | pulled (idx : Nat) (input : T)
  | computed (idx : Nat) (out : R)
  | done
deriving DecidableEq

/-- The state of the dispatcher goroutine: still iterating over `inputs`,
finished and having closed the task channel, or returned early on
cancellation (without closing the channel). -/
inductive DispState where
  | feeding
  | closedTasks
  | aborted
deriving DecidableEq, Repr

/-- A configuration of one `Run` invocation of pool.go.
`fed` is the dispatcher's position in `inputs`; `dispLog` records the
hand-offs actually sent on the task channel (index and input, in order);
`resultsBuf` is the contents of the buffered result channel (FIFO, oldest
first); `outputs`/`collected` are the collector's local state; `retval` is
`some (slice, err)` once the collector has returned.  `cancelled` is the
state of the caller's context. -/
structure PConfig (T R : Type) where
  cancelled : Bool
  fed : Nat
  dispatcher : DispState
  tasksClosed : Bool
  dispLog : List (Nat × T)
  workers : List (WState T R)
  resultsBuf : List (Nat × R)
  resultsClosed : Bool
  outputs : List R
  collected : Nat
  retval : Option (Option (List R) × Option RunError)
deriving DecidableEq

variable {T R : Type}

/-- Initial configuration of `Run ctx inputs fn` with `W` workers:
`outputs := make([]R, len(inputs))` is a slice of zero values (`default`). -/
def initConfig (W : Nat) (inputs : List T) [Inhabited R] : PConfig T R :=
  { cancelled := false
    fed := 0
    dispatcher := .feeding
    tasksClosed := false
    dispLog := []
    workers := List.replicate W .idle
    resultsBuf := []
    resultsClosed := false
    outputs := List.replicate inputs.length default
    collected := 0
    retval := none }

/-- The task index a worker currently holds, if any. -/
def wIdx : WState T R → Option Nat
  | .pulled i _ => some i
  | .computed i _ => some i
  | _ => none

/-- Multiset of task indices currently held by workers. -/
def heldMS (ws : List (WState T R)) : Multiset Nat :=
  (ws.filterMap wIdx : List Nat)

/-- Multiset of indices held by a single worker state (zero or one element). -/
def pick (s : WState T R) : Multiset Nat :=
  match wIdx s with
  | some i => {i}
  | none => 0

/-- One interleaving step of the goroutines of `Run` (pool.go lines 49-142),
together with the environment step that fires the caller's context.

* `cancel` — the context's cancellation fires (explicit cancel or deadline).
* `dispatchHandOff` — the dispatcher's `tasks <- task{idx: i, input: input}`
  rendezvouses with an idle worker's `t, ok := <-tasks`.
* `dispatchClose` — the dispatcher has fed every input and runs `close(tasks)`.
* `dispatchAbort` — the dispatcher's select observes `ctx.Done()` mid-loop and
  `return`s, without closing the task channel.
* `workerAbortIdle` — an idle worker's outer select observes `ctx.Done()`.
* `workerSeeClosed` — an idle worker receives `ok = false` from the closed
  task channel and returns.
* `workerAbortPulled` — the inner `select { case <-ctx.Done(): return;
  default: }` observes a fired context and returns before calling `fn`.
* `workerCompute` — the inner select takes `default` (context not fired) and
  the worker computes `out := fn(ctx, t.input)`.
* `workerAbortSend` — the send select observes `ctx.Done()` and the worker
  returns, discarding the computed result.
* `workerSend` — the worker sends `(idx, out)` into the buffered result
  channel (capacity `len(inputs)`).
* `closeResults` — `wg.Wait()` returns (all workers done) and `close(results)` runs.
* `collectCancel` — the collector's select observes `ctx.Done()` and `Run`
  returns `nil, ctx.Err()`.
* `collectRecv` — the collector receives the oldest buffered result and stores
  it by index.
* `collectClosed` — the collector receives `ok = false` from the closed and
  drained result channel and `Run` returns `outputs, nil`.
* `collectFinish` — `collected == len(inputs)`, the loop exits and `Run`
  returns `outputs, nil`. -/
inductive PStep (inputs : List T) (fn : T → R) : PConfig T R → PConfig T R → Prop where
  | cancel (c : PConfig T R) (h : c.cancelled = false) :
      PStep inputs fn c { c with cancelled := true }
  | dispatchHandOff (c : PConfig T R) (w : Nat) (t : T)
      (hd : c.dispatcher = .feeding)
      (ht : inputs.get? c.fed = some t)
      (hw : c.workers.get? w = some .idle) :
      PStep inputs fn c
        { c with fed := c.fed + 1
                 dispLog := c.dispLog ++ [(c.fed, t)]
                 workers := c.workers.set w (.pulled c.fed t) }
  | dispatchClose (c : PConfig T R)
      (hd : c.dispatcher = .feeding)
      (hfed : c.fed = inputs.length) :
      PStep inputs fn c { c with dispatcher := .closedTasks, tasksClosed := true }
  | dispatchAbort (c : PConfig T R)
      (hd : c.dispatcher = .feeding)
      (hc : c.cancelled = true)
      (hfed : c.fed < inputs.length) :
      PStep inputs fn c { c with dispatcher := .aborted }
  | workerAbortIdle (c : PConfig T R) (w : Nat)
      (hc : c.cancelled = true)
      (hw : c.workers.get? w = some .idle) :
      PStep inputs fn c { c with workers := c.workers.set w .done }
  | workerSeeClosed (c : PConfig T R) (w : Nat)
      (hcl : c.tasksClosed = true)
      (hw : c.workers.get? w = some .idle) :
      PStep inputs fn c { c with workers := c.workers.set w .done }
  | workerAbortPulled (c : PConfig T R) (w : Nat) (i : Nat) (t : T)
      (hc : c.cancelled = true)
      (hw : c.workers.get? w = some (.pulled i t)) :
      PStep inputs fn c { c with workers := c.workers.set w .done }
  | workerCompute (c : PConfig T R) (w : Nat) (i : Nat) (t : T)
      (hc : c.cancelled = false)
      (hw : c.workers.get? w = some (.pulled i t)) :
      PStep inputs fn c { c with workers := c.workers.set w (.computed i (fn t)) }
  | workerAbortSend (c : PConfig T R) (w : Nat) (i : Nat) (out : R)
      (hc : c.cancelled = true)
      (hw : c.workers.get? w = some (.computed i out)) :
      PStep inputs fn c { c with workers := c.workers.set w .done }
  | workerSend (c : PConfig T R) (w : Nat) (i : Nat) (out : R)
      (hcap : c.resultsBuf.length < inputs.length)
      (hw : c.workers.get? w = some (.computed i out)) :
      PStep inputs fn c
        { c with resultsBuf := c.resultsBuf ++ [(i, out)]
                 workers := c.workers.set w .idle }
  | closeResults (c : PConfig T R)
      (h : c.resultsClosed = false)
      (hall : ∀ w s, c.workers.get? w = some s → s = .done) :
      PStep inputs fn c { c with resultsClosed := true }
  | collectCancel (c : PConfig T R)
      (hc : c.cancelled = true)
      (hret : c.retval = none)
      (hlt : c.collected < inputs.length) :
      PStep inputs fn c { c with retval := some (none, some .ctxCanceled) }
  | collectRecv (c : PConfig T R) (i : Nat) (out : R) (rest : List (Nat × R))
      (hret : c.retval = none)
      (hlt : c.collected < inputs.length)
      (hbuf : c.resultsBuf = (i, out) :: rest) :
      PStep inputs fn c
        { c with resultsBuf := rest
                 outputs := c.outputs.set i out
                 collected := c.collected + 1 }
  | collectClosed (c : PConfig T R)
      (hret : c.retval = none)
      (hlt : c.collected < inputs.length)
      (hcl : c.resultsClosed = true)
      (hemp : c.resultsBuf = []) :
      PStep inputs fn c { c with retval := some (some c.outputs, none) }
  | collectFinish (c : PConfig T R)
      (hret : c.retval = none)
      (heq : c.collected = inputs.length) :
      PStep inputs fn c { c with retval := some (some c.outputs, none) }

/-- Reachability of a configuration in one `Run` invocation of pool.go. -/
def PReach (W : Nat) (inputs : List T) (fn : T → R) [Inhabited R] (c : PConfig T R) : Prop :=
  Relation.ReflTransGen (PStep inputs fn) (initConfig W inputs) c

/-! ## Small-step model of the draft `Run` (no context parameter)

The draft variant (the `Run(inputs []T, fn func(T) R) []R` version in the
repository): an unbuffered result channel, the collector appends each
received output (`outputs = append(outputs, r.output)`), no cancellation.
A worker's send is a rendezvous with the collector, so the `send` step
appends to `outputs` directly. `finished` records that the result channel has
been closed (all workers returned) and the collector's range loop has ended. -/
structure DConfig (T R : Type) where
  fed : Nat
  tasksClosed : Bool
  workers : List (WState T R)
  outputs : List R
  finished : Bool
deriving DecidableEq

/-- Initial configuration of the draft `Run` with `W` workers:
`outputs` starts as the empty (nil) slice. -/
def initDraft (W : Nat) : DConfig T R :=
  { fed := 0
    tasksClosed := false
    workers := List.replicate W .idle
    outputs := []
    finished := false }

/-- One interleaving step of the draft `Run`. -/
inductive DStep (inputs : List T) (fn : T → R) : DConfig T R → DConfig T R → Prop where
  | pull (c : DConfig T R) (w : Nat) (t : T)
      (hcl : c.tasksClosed = false)
      (ht : inputs.get? c.fed = some t)
      (hw : c.workers.get? w = some .idle) :
      DStep inputs fn c
        { c with fed := c.fed + 1, workers := c.workers.set w (.pulled c.fed t) }
  | closeT (c : DConfig T R)
      (hcl : c.tasksClosed = false)
      (hfed : c.fed = inputs.length) :
      DStep inputs fn c { c with tasksClosed := true }
  | compute (c : DConfig T R) (w : Nat) (i : Nat) (t : T)
      (hw : c.workers.get? w = some (.pulled i t)) :
      DStep inputs fn c { c with workers := c.workers.set w (.computed i (fn t)) }
  | send (c : DConfig T R) (w : Nat) (i : Nat) (out : R)
      (hfin : c.finished = false)
      (hw : c.workers.get? w = some (.computed i out)) :
      DStep inputs fn c
        { c with outputs := c.outputs ++ [out], workers := c.workers.set w .idle }
  | seeClosed (c : DConfig T R) (w : Nat)
      (hcl : c.tasksClosed = true)
      (hw : c.workers.get? w = some .idle) :
      DStep inputs fn c { c with workers := c.workers.set w .done }
  | finish (c : DConfig T R)
      (hfin : c.finished = false)
      (hall : ∀ w s, c.workers.get? w = some s → s = .done) :
      DStep inputs fn c { c with finished := true }

/-- Reachability for the draft `Run`. -/
def DReach (W : Nat) (inputs : List T) (fn : T → R) (c : DConfig T R) : Prop :=
  Relation.ReflTransGen (DStep inputs fn) (initDraft W) c

/-- `fn` applied to the input at index `i` (the value a result message with
index `i` carries); `default` outside the range, which never occurs in a run. -/
def resultAt (inputs : List T) (fn : T → R) [Inhabited R] (i : Nat) : R :=
  match inputs.get? i with
  | some t => fn t
  | none => default

/-! ## The two collection loops as functions of the observed channel events -/

/-- What the pool.go collector can observe at its select: the context firing,
a buffered result, or the closed-and-drained result channel. -/
inductive CEvent (R : Type) where
  | ctxDone
  | recv (idx : Nat) (out : R)
  | closed
deriving DecidableEq

/-- The collector loop of pool.go (lines 117-141), as a function of the event
stream: while `collected < n`, select; on `ctx.Done()` return `(nil, ctx.Err())`;
on a received result store it by index; on a closed channel return
`(outputs, nil)`; once `collected = n` return `(outputs, nil)`.
`none` means the stream ended while the loop would still be blocked. -/
def poolCollect (n : Nat) :
    List R → Nat → List (CEvent R) → Option (Option (List R) × Option RunError)
  | outputs, collected, [] =>
      if collected < n then none else some (some outputs, none)
  | outputs, collected, e :: rest =>
      if collected < n then
        match e with
        | .ctxDone => some (none, some .ctxCanceled)
        | .recv i out => poolCollect n (outputs.set i out) (collected + 1) rest
        | .closed => some (some outputs, none)
      else some (some outputs, none)

/-- What the collector of the earlier context-aware variant observes in its
`for r := range results` loop: a result, or the channel closing. -/
inductive RangeEvent (R : Type) where
  | recv (idx : Nat) (out : R)
  | closed
deriving DecidableEq

/-- The collection loop of the earlier context-aware `Run` variant: drain the
result channel until it closes, then check `ctx.Err()` (returning the wrapped
`"worker pool exited early"` error), then check `received < len(inputs)`
(returning the `"did not return all results"` error), else return a nil error.
`cancelled` is the value of `ctx.Err() != nil` after the loop. -/
def ctxCollect (n : Nat) (cancelled : Bool) :
    List R → Nat → List (RangeEvent R) → Option (List R × Option RunError)
  | _, _, [] => none
  | outputs, received, .closed :: _ =>
      some (outputs,
        if cancelled then some .exitedEarly
        else if received < n then some (.incomplete received n)
        else none)
  | outputs, received, .recv i out :: rest =>
      ctxCollect n cancelled (outputs.set i out) (received + 1) rest

end GoHPC

namespace GoHPC.Serve

/-! ## The job registry (pkg/serve/job.go) -/

/-- `Resources` from job.go. -/
structure Resources where
  cpu : String
  memory : String
deriving DecidableEq, Repr

/-- `JobStatus` from job.go. -/
inductive JobStatus where
  | pending
  | running
  | completed
  | failed
deriving DecidableEq, Repr

/-- `Job` from job.go.  Go maps may be `nil`; a map-typed field is modelled as
`Option` of an association list, `none` being the nil map. -/
structure Job where
  id : Int
  status : JobStatus
  resources : Resources
  input : Option (List (String × String))
  output : Option (List (String × String))
deriving DecidableEq, Repr

/-- `NewJob` from job.go: rejects `id <= 0` and empty cpu/memory, otherwise
builds a pending job with a fresh non-nil empty output map. -/
def NewJob (id : Int) (res : Resources) (inp : Option (List (String × String))) :
    Except String Job :=
  if id ≤ 0 then
    .error "id must be > 0"
  else if res.cpu = "" ∨ res.memory = "" then
    .error "resources.cpu and resources.memory are required"
  else
    .ok { id := id, status := .pending, resources := res, input := inp, output := some [] }

/-- `jobExists` from job.go: scans the whole collection, latching `exists`
to true whenever an identifier matches. -/
def jobExists (newJob : Job) (jobs : List Job) : Bool :=
  jobs.foldl (fun ex job => if newJob.id = job.id then true else ex) false

/-- The body of a POST /jobs request (the `jobRequest` struct). -/
structure JobRequest where
  id : Int
  resources : Resources
  input : Option (List (String × String))
deriving DecidableEq, Repr

/-- The observable outcome of the POST /jobs handler. -/
inductive PostOutcome where
  | badRequest (msg : String)
  | conflict (jobId : Int)
  | created (job : Job)
deriving DecidableEq, Repr

/-- The POST /jobs handler of `createJobRoute` (after JSON decoding):
validate via `NewJob`, reject duplicates via `jobExists` with a 409 conflict,
otherwise append the new job to the collection and echo it back. -/
def postJobs (jr : JobRequest) (jobs : List Job) : PostOutcome × List Job :=
  match NewJob jr.id jr.resources jr.input with
  | .error e => (.badRequest e, jobs)
  | .ok newJob =>
      if jobExists newJob jobs then (.conflict newJob.id, jobs)
      else (.created newJob, jobs ++ [newJob])

/-- The GET /jobs handler: encodes the collection; the collection is unchanged. -/
def listJobs (jobs : List Job) : List Job :=
  jobs

/-- The GET /jobs/\x7bid\x7d handler: returns the first job with a matching
identifier, if any; the collection is unchanged. -/
def getJob (id : Int) (jobs : List Job) : Option Job :=
  jobs.find? (fun job => job.id = id)

/-- One registry operation, as a relation on the stored collection:
list and get leave it unchanged, create transforms it through `postJobs`. -/
inductive RegStep : List Job → List Job → Prop where
  | list (jobs : List Job) : RegStep jobs (listJobs jobs)
  | get (id : Int) (jobs : List Job) : RegStep jobs jobs
  | create (jr : JobRequest) (jobs : List Job) : RegStep jobs (postJobs jr jobs).2

/-- Collections reachable from the initial empty registry
(`Jobs: make([]Job, 0)` in `serve.New`). -/
def RegReach (jobs : List Job) : Prop :=
  Relation.ReflTransGen RegStep [] jobs

/-- The registry invariant of the claim: ids positive, resources non-empty,
status pending, output map non-nil, ids pairwise distinct. -/
def JobInv (jobs : List Job) : Prop :=
  (∀ j ∈ jobs, 0 < j.id ∧ j.resources.cpu ≠ "" ∧ j.resources.memory ≠ "" ∧
      j.status = .pending ∧ j.output ≠ none) ∧
  jobs.Pairwise (fun a b => a.id ≠ b.id)

end GoHPC.Serve

namespace GoHPC

/-! ## The work splitter of the compute-server examples -/

/-- `Task` from the Monte Carlo examples: a trial count. -/
structure Task where
  Count : Nat
deriving DecidableEq, Repr

/-- The splitting loop shared by `cmd/example/multi_node/main.go` (the
`HandleCompute` splitter) and `cmd/example/monte-carlo/main.go`:
`base := total / nWorkers`, `rem := total % nWorkers`; worker `j` gets
`base + 1` if `j < rem`, else `base`.  The Go values are non-negative ints,
modelled as `Nat` (Go integer division on non-negative operands agrees with
`Nat` division). -/
def splitTasks (total nWorkers : Nat) : List Task :=
  (List.range nWorkers).map
    (fun j => { Count := total / nWorkers + if j < total % nWorkers then 1 else 0 })

end GoHPC

namespace GoHPC

variable {T R : Type}

/-- Inductive invariant of the draft `Run`: `deliv` is the sequence of task
indices whose results the collector has appended, in arrival order.  Every
index is dispatched at most once (`hacc`: delivered and in-flight indices are
exactly the dispatched prefix `range fed`, as a multiset), pulled tasks carry
the input at their index, computed results are `fn` of that input, the output
slice is the delivered results in arrival order, workers terminate only after
the task channel closes, and the channel closes only after all inputs were fed. -/
def DraftInv (inputs : List T) (fn : T → R) [Inhabited R] (c : DConfig T R) : Prop :=
  c.workers ≠ [] ∧
  c.fed ≤ inputs.length ∧
  (c.tasksClosed = true → c.fed = inputs.length) ∧
  (∀ w i t, c.workers.get? w = some (.pulled i t) → inputs.get? i = some t) ∧
  (∀ w i out, c.workers.get? w = some (.computed i out) →
    ∃ t, inputs.get? i = some t ∧ out = fn t) ∧
  (∃ deliv : List Nat,
    c.outputs = deliv.map (resultAt inputs fn) ∧
    (deliv : Multiset Nat) + heldMS c.workers = (List.range c.fed : List Nat)) ∧
  (∀ w, c.workers.get? w = some .done → c.tasksClosed = true) ∧
  (c.finished = true → ∀ w s, c.workers.get? w = some s → s = .done)

/-- Inductive invariant of pool.go's `Run`.  The existential `deliv` lists the
indices the collector has stored, in arrival order.  The accounting clause
(delivered + buffered + in-flight indices = the dispatched prefix, as a
multiset) and the termination-discipline clauses hold as long as the context
has not fired; the data-correctness clauses (pulled inputs, computed and
buffered results, stored outputs are `fn` of the input at their index) hold
unconditionally.  The last clause characterises the value a non-cancelled
`Run` can return. -/
def PoolInv (inputs : List T) (fn : T → R) [Inhabited R] (c : PConfig T R) : Prop :=
  c.workers ≠ [] ∧
  c.fed ≤ inputs.length ∧
  c.outputs.length = inputs.length ∧
  (c.tasksClosed = true → c.fed = inputs.length) ∧
  (∀ w i t, c.workers.get? w = some (.pulled i t) → inputs.get? i = some t) ∧
  (∀ w i out, c.workers.get? w = some (.computed i out) →
      ∃ t, inputs.get? i = some t ∧ out = fn t) ∧
  (∀ p ∈ c.resultsBuf, ∃ t, inputs.get? p.1 = some t ∧ p.2 = fn t) ∧
  (∃ deliv : List Nat,
      deliv.length = c.collected ∧
      (∀ i ∈ deliv, ∃ t, inputs.get? i = some t ∧ c.outputs.get? i = some (fn t)) ∧
      (c.cancelled = false →
        ((deliv : Multiset Nat) + (c.resultsBuf.map Prod.fst : List Nat))
          + heldMS c.workers = (List.range c.fed : List Nat))) ∧
  (c.cancelled = false → ∀ w, c.workers.get? w = some .done → c.tasksClosed = true) ∧
  (c.resultsClosed = true → ∀ w s, c.workers.get? w = some s → s = .done) ∧
  (c.cancelled = false → ∀ v, c.retval = some v → v = (some (inputs.map fn), none))

/-- Dispatcher-discipline invariant of pool.go's `Run`: the task channel is
closed exactly by the dispatcher finishing all inputs (never after an early
cancellation stop), and the hand-off log is the indexed prefix of the inputs
in their original order. -/
def DispInv (inputs : List T) (c : PConfig T R) : Prop :=
  c.fed ≤ inputs.length ∧
  (c.tasksClosed = true → c.dispatcher = .closedTasks ∧ c.fed = inputs.length) ∧
  (c.dispatcher = .aborted → c.tasksClosed = false) ∧
  c.dispLog.map Prod.fst = List.range c.fed ∧
  c.dispLog.map Prod.snd = inputs.take c.fed

/-- Error-shape invariant of pool.go's `Run`: the only return carrying a
non-nil error is the collector's cancellation branch, which returns the nil
slice and `ctx.Err()`. -/
def ErrInv (c : PConfig T R) : Prop :=
  ∀ out e, c.retval = some (out, some e) → out = none ∧ e = RunError.ctxCanceled

/-- Invariant of pool.go's `Run` on the empty input list: nothing is ever
dispatched, no worker ever holds a task, and the only possible return value
is the empty slice with a nil error. -/
def EmptyInv (c : PConfig T R) : Prop :=
  c.fed = 0 ∧ c.resultsBuf = [] ∧ c.outputs = [] ∧ c.collected = 0 ∧
  (∀ w s, c.workers.get? w = some s → s = .idle ∨ s = .done) ∧
  (∀ v, c.retval = some v → v = (some [], none))

/-- The terminal configuration of concrete scenario A (`[1,2,3,4]`, squaring,
2 workers, sequential schedule). -/
def scenarioACfg : PConfig Nat Nat :=
  { cancelled := false, fed := 4, dispatcher := .feeding, tasksClosed := false,
    dispLog := [(0, 1), (1, 2), (2, 3), (3, 4)], workers := [.idle, .idle],
    resultsBuf := [], resultsClosed := false, outputs := [1, 4, 9, 16],
    collected := 4, retval := some (some [1, 4, 9, 16], none) }

/-- A configuration reached on inputs `[1, 2]` when the context fires before
anything is collected and the collector takes the cancellation branch. -/
def cexCancelCfg : PConfig Nat Nat :=
  { cancelled := true, fed := 0, dispatcher := .feeding, tasksClosed := false,
    dispLog := [], workers := [.idle], resultsBuf := [], resultsClosed := false,
    outputs := [0, 0], collected := 0, retval := some (none, some .ctxCanceled) }

/-- A configuration reached on inputs `[1]` when the context fires and the
dispatcher stops early: it has returned (`aborted`) without closing the task
channel. -/
def cexAbortCfg : PConfig Nat Nat :=
  { cancelled := true, fed := 0, dispatcher := .aborted, tasksClosed := false,
    dispLog := [], workers := [.idle], resultsBuf := [], resultsClosed := false,
    outputs := [0], collected := 0, retval := none }

/-- The configuration of a 2-worker run on the empty input list right after
the collector returns. -/
def emptyRetCfg : PConfig Nat Nat :=
  { cancelled := false, fed := 0, dispatcher := .feeding, tasksClosed := false,
    dispLog := [], workers := [.idle, .idle], resultsBuf := [], resultsClosed := false,
    outputs := [], collected := 0, retval := some (some [], none) }

/-- Invariant of the draft `Run` with a single worker: the lone worker cycles
through pulling, computing and sending task `fed - 1`, and the output slice is
always the in-order image of the already-sent prefix of the inputs. -/
def SingleInv (inputs : List T) (fn : T → R) (c : DConfig T R) : Prop :=
  (c.tasksClosed = true → c.fed = inputs.length) ∧
  ((c.workers = [.idle] ∧ c.outputs = (inputs.take c.fed).map fn) ∨
   (∃ t, c.workers = [.pulled (c.fed - 1) t] ∧ 1 ≤ c.fed ∧
      inputs.get? (c.fed - 1) = some t ∧ c.outputs = (inputs.take (c.fed - 1)).map fn) ∨
   (∃ t, c.workers = [.computed (c.fed - 1) (fn t)] ∧ 1 ≤ c.fed ∧
      inputs.get? (c.fed - 1) = some t ∧ c.outputs = (inputs.take (c.fed - 1)).map fn) ∨
   (c.workers = [.done] ∧ c.tasksClosed = true ∧ c.outputs = inputs.map fn ∧
      c.fed = inputs.length))

end GoHPC

/-! # Helper lemmas -/

namespace GoHPC

variable {T R : Type}

theorem get?_set_cases {α : Type} (ws : List α) (w' : Nat) (a : α) (w : Nat) (s : α)
    (h : (ws.set w' a).get? w = some s) : s = a ∨ ws.get? w = some s := by
  induction ws generalizing w w' with
  | nil => simp [List.set] at h
  | cons x xs ih =>
    cases w' with
    | zero =>
      cases w with
      | zero => simp_all
      | succ w => simp_all
    | succ w' =>
      cases w with
      | zero => simp_all
      | succ w =>
        simp only [List.set, List.get?] at h ⊢
        exact ih w' w h

theorem exists_split_of_get? {α : Type} (ws : List α) (w : Nat) (s : α)
    (h : ws.get? w = some s) :
    ∃ l r, ws = l ++ s :: r ∧ l.length = w ∧ ∀ s', ws.set w s' = l ++ s' :: r := by
  induction ws generalizing w with
  | nil => simp at h
  | cons x xs ih =>
    cases w with
    | zero =>
      refine ⟨[], xs, ?_, rfl, ?_⟩
      · simp at h; simp [h]
      · intro s'; simp [List.set]
    | succ w =>
      simp only [List.get?] at h
      obtain ⟨l, r, hxs, hlen, hset⟩ := ih w h
      refine ⟨x :: l, r, by simp [hxs], by simp [hlen], ?_⟩
      intro s'
      simp [List.set, hset s']

theorem heldMS_cons (x : WState T R) (ws : List (WState T R)) :
    heldMS (x :: ws) = pick x + heldMS ws := by
  unfold heldMS pick
  rw [List.filterMap_cons]
  cases hx : wIdx x <;> simp [hx]

theorem heldMS_append (l r : List (WState T R)) :
    heldMS (l ++ r) = heldMS l + heldMS r := by
  unfold heldMS
  rw [List.filterMap_append]
  exact_mod_cast rfl

theorem heldMS_set (ws : List (WState T R)) (w : Nat) (s s' : WState T R)
    (h : ws.get? w = some s) :
    heldMS (ws.set w s') + pick s = heldMS ws + pick s' := by
  obtain ⟨l, r, hws, -, hset⟩ := exists_split_of_get? ws w s h
  rw [hset s', hws, heldMS_append, heldMS_append, heldMS_cons, heldMS_cons]
  abel

theorem heldMS_all_done (ws : List (WState T R))
    (h : ∀ w s, ws.get? w = some s → s = .done) : heldMS ws = 0 := by
  induction ws with
  | nil => rfl
  | cons x xs ih =>
    have hx : x = .done := h 0 x rfl
    rw [heldMS_cons, hx]
    have : heldMS xs = 0 := ih (fun w s hw => h (w + 1) s hw)
    simp [pick, wIdx, this]

end GoHPC

namespace GoHPC.Serve

theorem jobExists_eq_any (nj : Job) (jobs : List Job) :
    jobExists nj jobs = jobs.any (fun j => nj.id == j.id) := by
  unfold jobExists
  suffices h : ∀ acc : Bool,
      jobs.foldl (fun ex job => if nj.id = job.id then true else ex) acc =
        (acc || jobs.any (fun j => nj.id == j.id)) by
    simpa using h false
  induction jobs with
  | nil => simp
  | cons x xs ih =>
    intro acc
    simp only [List.foldl_cons, List.any_cons, ih]
    by_cases hx : nj.id = x.id
    · simp [hx]
    · rw [show (nj.id == x.id) = false from beq_eq_false_iff_ne.mpr hx]
      simp [hx]

theorem jobExists_iff (nj : Job) (jobs : List Job) :
    jobExists nj jobs = true ↔ ∃ j ∈ jobs, nj.id = j.id := by
  rw [jobExists_eq_any, List.any_eq_true]
  simp

theorem NewJob_ok_props (id : Int) (res : Resources) (inp : Option (List (String × String)))
    (nj : Job) (hok : NewJob id res inp = .ok nj) :
    nj.id = id ∧ 0 < nj.id ∧ nj.resources = res ∧ nj.resources.cpu ≠ "" ∧
    nj.resources.memory ≠ "" ∧ nj.status = .pending ∧ nj.output = some [] := by
  unfold NewJob at hok
  split at hok
  · exact absurd hok (by simp)
  · split at hok
    · exact absurd hok (by simp)
    · rename_i hid hres
      cases hok
      push_neg at hres
      refine ⟨rfl, ?_, rfl, hres.1, hres.2, rfl, rfl⟩
      show (0 : Int) < id
      omega

end GoHPC.Serve

namespace GoHPC

theorem sum_range_ite (b r : Nat) :
    ∀ n : Nat, ((List.range n).map (fun j => b + if j < r then 1 else 0)).sum
      = n * b + min r n := by
  intro n
  induction n with
  | zero => simp
  | succ n ih =>
    rw [List.range_succ, List.map_append, List.sum_append, ih, Nat.succ_mul]
    by_cases h : n < r
    · simp only [if_pos h, List.map_cons, List.map_nil, List.sum_cons, List.sum_nil]
      omega
    · simp only [if_neg h, List.map_cons, List.map_nil, List.sum_cons, List.sum_nil]
      omega

theorem splitTasks_mem (total n : Nat) (t : Task) (ht : t ∈ splitTasks total n) :
    t.Count = total / n ∨ t.Count = total / n + 1 := by
  unfold splitTasks at ht
  obtain ⟨j, -, hj⟩ := List.mem_map.mp ht
  by_cases h : j < total % n
  · right; rw [← hj]; simp [h]
  · left; rw [← hj]; simp [h]

end GoHPC

namespace GoHPC.Serve

theorem postJobs_preserves (jr : JobRequest) (jobs : List Job) (h : JobInv jobs) :
    JobInv (postJobs jr jobs).2 := by
  unfold postJobs
  cases hok : NewJob jr.id jr.resources jr.input with
  | error e => simpa using h
  | ok nj =>
    by_cases hex : jobExists nj jobs = true
    · simpa [hex] using h
    · have hexf : jobExists nj jobs = false := by simpa using hex
      simp only [hexf, Bool.false_eq_true, if_false]
      obtain ⟨hid, hpos, hres, hcpu, hmem, hstat, hout⟩ := NewJob_ok_props _ _ _ _ hok
      obtain ⟨h1, h2⟩ := h
      constructor
      · intro j hj
        rcases List.mem_append.mp hj with hj | hj
        · exact h1 j hj
        · simp only [List.mem_singleton] at hj
          subst hj
          exact ⟨hpos, hcpu, hmem, hstat, by simp [hout]⟩
      · rw [List.pairwise_append]
        refine ⟨h2, List.pairwise_singleton _ _, ?_⟩
        intro a ha x hx
        simp only [List.mem_singleton] at hx
        rw [hx]
        intro heq
        have htrue : jobExists nj jobs = true :=
          (jobExists_iff nj jobs).mpr ⟨a, ha, heq.symm⟩
        rw [hexf] at htrue
        cases htrue

end GoHPC.Serve

namespace GoHPC

/-- **C5** (corrected).  The worker count of a constructed executor defaults to
`runtime.NumCPU()` only when no `WithWorkers` option is supplied; `WithWorkers`
stores its argument unconditionally (pool.go has no positivity guard), and the
last option applied wins.  Hence a non-positive `WithWorkers` value is *not*
replaced by the processor count, and the effective count is not always positive. -/
theorem withWorkers_unconditional :
    (∀ numCPU : Int, (New numCPU []).NumWorkers = numCPU) ∧
    (∀ (numCPU num : Int) (opts : List (PoolOptions → PoolOptions)),
      (New numCPU (opts ++ [WithWorkers num])).NumWorkers = num) := by
  constructor
  · intro numCPU; rfl
  · intro numCPU num opts
    unfold New
    rw [List.foldl_append]
    rfl

/-- Witness for `withWorkers_unconditional` at `numCPU = 8`, `num = 0`. -/
theorem withWorkers_unconditional_witness :
    (New 8 []).NumWorkers = 8 ∧ (New 8 [WithWorkers 0]).NumWorkers = 0 :=
  ⟨withWorkers_unconditional.1 8, withWorkers_unconditional.2 8 0 []⟩

/-- **C5 counterexample**.  With `runtime.NumCPU() = 8`, constructing the
executor with `WithWorkers 0` (a non-positive value) yields worker count `0`,
not the processor count, and the count is not positive — refuting the claim
that a non-positive `WithWorkers` value falls back to the processor count. -/
theorem withWorkers_counterexample :
    (New 8 [WithWorkers 0]).NumWorkers = 0 ∧
    (New 8 [WithWorkers 0]).NumWorkers ≠ 8 ∧
    ¬(0 < (New 8 [WithWorkers 0]).NumWorkers) := by
  decide

/-- **C9** (confirmed).  For every requested total and worker count `n ≥ 1`,
the splitting loop of the compute-server examples produces exactly `n` tasks
with non-negative counts summing exactly to the total, pairwise differing by at
most one, where task `j` gets `total / n` plus one extra unit exactly when
`j < total % n` (the first `total mod n` tasks). -/
theorem splitTasks_balanced (total n : Nat) (hn : 1 ≤ n) :
    (splitTasks total n).length = n ∧
    ((splitTasks total n).map Task.Count).sum = total ∧
    (∀ t ∈ splitTasks total n, 0 ≤ t.Count) ∧
    (∀ a ∈ splitTasks total n, ∀ b ∈ splitTasks total n, a.Count ≤ b.Count + 1) ∧
    (∀ j, j < n → (splitTasks total n).get? j =
      some { Count := total / n + if j < total % n then 1 else 0 }) := by
  refine ⟨by simp [splitTasks], ?_, fun t _ => Nat.zero_le _, ?_, ?_⟩
  · unfold splitTasks
    rw [List.map_map]
    have h1 : (Task.Count ∘ fun j =>
        ({ Count := total / n + if j < total % n then 1 else 0 } : Task))
        = fun j => total / n + if j < total % n then 1 else 0 := rfl
    rw [h1, sum_range_ite]
    have h2 : total % n < n := Nat.mod_lt _ (by omega)
    have h3 := Nat.div_add_mod total n
    omega
  · intro a ha b hb
    rcases splitTasks_mem total n a ha with h | h <;>
      rcases splitTasks_mem total n b hb with h2 | h2 <;> omega
  · intro j hj
    unfold splitTasks
    rw [List.get?_map, List.get?_range hj]
    rfl

/-- Witness for `splitTasks_balanced`: 7 trials over 3 workers sum back to 7
in 3 tasks. -/
theorem splitTasks_balanced_witness :
    ((splitTasks 7 3).map Task.Count).sum = 7 ∧ (splitTasks 7 3).length = 3 :=
  ⟨(splitTasks_balanced 7 3 (by decide)).2.1, (splitTasks_balanced 7 3 (by decide)).1⟩

/-- **C7** (corrected).  For create requests that pass `NewJob` validation
(positive id, non-empty cpu and memory): a request whose id equals a stored
job's id gets a conflict response and leaves the collection unchanged, and a
request with a fresh id appends exactly the validated job.  (The validation
hypothesis is necessary: see the counterexample.) -/
theorem createJob_behavior (jr : Serve.JobRequest) (jobs : List Serve.Job)
    (nj : Serve.Job) (hok : Serve.NewJob jr.id jr.resources jr.input = .ok nj) :
    ((∃ j ∈ jobs, j.id = jr.id) → Serve.postJobs jr jobs = (.conflict jr.id, jobs)) ∧
    ((∀ j ∈ jobs, j.id ≠ jr.id) → Serve.postJobs jr jobs = (.created nj, jobs ++ [nj])) := by
  obtain ⟨hid, -, -, -, -, -, -⟩ := Serve.NewJob_ok_props _ _ _ _ hok
  constructor
  · rintro ⟨j, hj, hje⟩
    have hex : Serve.jobExists nj jobs = true :=
      (Serve.jobExists_iff nj jobs).mpr ⟨j, hj, by rw [hid, ← hje]⟩
    unfold Serve.postJobs
    rw [hok]
    simp [hex, hid]
  · intro hall
    have hexf : Serve.jobExists nj jobs = false := by
      rw [← Bool.not_eq_true]
      intro htrue
      obtain ⟨j, hj, hje⟩ := (Serve.jobExists_iff nj jobs).mp htrue
      exact hall j hj (by rw [← hid]; exact hje.symm)
    unfold Serve.postJobs
    rw [hok]
    simp [hexf]

/-- Witness for `createJob_behavior`: a valid request with fresh id 1 against
the empty registry is appended. -/
theorem createJob_behavior_witness :
    Serve.postJobs { id := 1, resources := { cpu := "1", memory := "1Gi" }, input := none } [] =
      (.created { id := 1, status := .pending, resources := { cpu := "1", memory := "1Gi" },
                  input := none, output := some [] },
        [{ id := 1, status := .pending, resources := { cpu := "1", memory := "1Gi" },
           input := none, output := some [] }]) :=
  (createJob_behavior
    { id := 1, resources := { cpu := "1", memory := "1Gi" }, input := none } []
    { id := 1, status := .pending, resources := { cpu := "1", memory := "1Gi" },
      input := none, output := some [] } rfl).2 (by simp)

/-- **C7 counterexample**.  A create request with the fresh positive
identifier 1 but empty cpu/memory strings is rejected by `NewJob` validation:
the handler answers 400 (bad request), and *nothing* is appended to the
collection — refuting "creating a job with a fresh positive identifier appends
exactly that job to the collection" as stated. -/
theorem createJob_counterexample :
    (Serve.postJobs { id := 1, resources := { cpu := "", memory := "" }, input := none } []).2
      = [] ∧
    (Serve.postJobs { id := 1, resources := { cpu := "", memory := "" }, input := none } []).1
      = .badRequest "resources.cpu and resources.memory are required" ∧
    (0 : Int) < 1 := by
  refine ⟨by decide, by decide, by decide⟩

/-- **C10** (confirmed).  Every collection reachable from the initial empty
registry through registry operations (list, get, create) satisfies the job
invariant: positive ids, non-empty cpu/memory, pending status, non-nil output
map, pairwise-distinct ids. -/
theorem registry_invariant (jobs : List Serve.Job) (h : Serve.RegReach jobs) :
    Serve.JobInv jobs := by
  induction h with
  | refl => exact ⟨by simp, List.Pairwise.nil⟩
  | tail hstar hstep ih =>
    cases hstep with
    | list _ => exact ih
    | get _ _ => exact ih
    | create jr _ => exact Serve.postJobs_preserves jr _ ih

/-- Witness for `registry_invariant`: the registry reached by one valid create
from the empty registry satisfies the invariant. -/
theorem registry_invariant_witness :
    Serve.JobInv (Serve.postJobs
      { id := 1, resources := { cpu := "1", memory := "1Gi" }, input := none } []).2 :=
  registry_invariant _
    (Relation.ReflTransGen.single
      (Serve.RegStep.create { id := 1, resources := { cpu := "1", memory := "1Gi" }, input := none } []))

/-- **C3** (corrected).  When the result channel closes before the expected
count with no cancellation observed: the collector of pkg/workerpool's `Run`
returns the partial buffer with a *nil* error (first part), whereas the
earlier context-aware variant returns the partial buffer with a non-nil
incomplete-results error, distinct from both cancellation errors (second part). -/
theorem collectors_early_close :
    (∀ (R : Type) (n : Nat) (outputs : List R) (collected : Nat) (rest : List (CEvent R)),
        collected < n →
        poolCollect n outputs collected (.closed :: rest) = some (some outputs, none)) ∧
    (∀ (R : Type) (n : Nat) (outputs : List R) (received : Nat) (rest : List (RangeEvent R)),
        received < n →
        ctxCollect n false outputs received (.closed :: rest) =
          some (outputs, some (.incomplete received n)) ∧
        some (RunError.incomplete received n) ≠ (none : Option RunError) ∧
        RunError.incomplete received n ≠ .ctxCanceled ∧
        RunError.incomplete received n ≠ .exitedEarly) := by
  constructor
  · intro R n outputs collected rest hlt
    simp [poolCollect, hlt]
  · intro R n outputs received rest hlt
    refine ⟨?_, by simp, by simp, by simp⟩
    simp [ctxCollect, hlt]

/-- Witness for `collectors_early_close`: with two expected results and an
immediately closed channel, the earlier variant reports `incomplete 0 2`. -/
theorem collectors_early_close_witness :
    (0 : Nat) < 2 ∧
    ctxCollect 2 false ([0, 0] : List Nat) 0 [RangeEvent.closed] =
      some ([0, 0], some (RunError.incomplete 0 2)) :=
  ⟨by decide, (collectors_early_close.2 Nat 2 [0, 0] 0 [] (by decide)).1⟩

/-- **C3 counterexample**.  The pkg/workerpool collector, expecting 2 results
with none collected and no cancellation observed, sees the result channel
close and returns the partial buffer with a *nil* error — refuting "never a
nil error". -/
theorem collectors_early_close_counterexample :
    poolCollect 2 ([0, 0] : List Nat) 0 [CEvent.closed] =
      some (some [0, 0], (none : Option RunError)) ∧
    (none : Option RunError) ≠ some (RunError.incomplete 0 2) := by
  refine ⟨rfl, by decide⟩

end GoHPC

namespace GoHPC

theorem set_ne_nil {α : Type} (l : List α) (hl : l ≠ []) (w : Nat) (a : α) :
    l.set w a ≠ [] := by
  intro h
  apply hl
  have hlen := congrArg List.length h
  rw [List.length_set] at hlen
  exact List.length_eq_zero.mp hlen

theorem get?_singleton {α : Type} (x y : α) (w : Nat)
    (h : ([x] : List α).get? w = some y) : w = 0 ∧ y = x := by
  cases w with
  | zero =>
    simp only [List.get?] at h
    cases h
    exact ⟨rfl, rfl⟩
  | succ w => simp [List.get?] at h

theorem coe_range_succ (n : Nat) :
    ((List.range (n + 1) : List Nat) : Multiset Nat) =
      ((List.range n : List Nat) : Multiset Nat) + {n} := by
  rw [List.range_succ]
  exact_mod_cast rfl

theorem resultAt_of_get? {inputs : List T} {fn : T → R} [Inhabited R] {i : Nat} {t : T}
    (h : inputs.get? i = some t) : resultAt inputs fn i = fn t := by
  unfold resultAt
  split
  · rename_i t' ht'
    rw [h] at ht'
    cases ht'
    rfl
  · rename_i ht'
    rw [h] at ht'
    cases ht'

theorem range_map_resultAt (inputs : List T) (fn : T → R) [Inhabited R] :
    (List.range inputs.length).map (resultAt inputs fn) = inputs.map fn := by
  apply List.ext
  intro j
  cases hg : inputs.get? j with
  | none =>
    have hj : inputs.length ≤ j := List.get?_eq_none.mp hg
    rw [List.get?_map, List.get?_map, hg,
      List.get?_eq_none.mpr (by rw [List.length_range]; exact hj)]
    rfl
  | some t =>
    have hj : j < inputs.length := (List.get?_eq_some.mp hg).1
    rw [List.get?_map, List.get?_map, hg, List.get?_range hj]
    simp [resultAt_of_get? hg]

theorem draftInv_step {inputs : List T} {fn : T → R} [Inhabited R] {c c' : DConfig T R}
    (hinv : DraftInv inputs fn c) (hs : DStep inputs fn c c') : DraftInv inputs fn c' := by
  obtain ⟨hwne, hfed, htc, hpulled, hcomp, ⟨deliv, hout, hacc⟩, hdone, hfin⟩ := hinv
  cases hs with
  | pull w t hcl ht hw =>
    have hflt : c.fed < inputs.length := (List.get?_eq_some.mp ht).1
    have h1 := heldMS_set c.workers w _ (.pulled c.fed t) hw
    simp only [pick, wIdx] at h1
    rw [add_zero] at h1
    refine ⟨set_ne_nil _ hwne _ _, ?_, ?_, ?_, ?_, ⟨deliv, hout, ?_⟩, ?_, ?_⟩
    · show c.fed + 1 ≤ inputs.length
      omega
    · intro h
      have := htc h
      omega
    · intro w' i' t' hw'
      rcases get?_set_cases _ _ _ _ _ hw' with h | h
      · cases h; exact ht
      · exact hpulled _ _ _ h
    · intro w' i' out' hw'
      rcases get?_set_cases _ _ _ _ _ hw' with h | h
      · cases h
      · exact hcomp _ _ _ h
    · show (deliv : Multiset Nat) + heldMS (c.workers.set w (.pulled c.fed t)) =
        ((List.range (c.fed + 1) : List Nat) : Multiset Nat)
      rw [coe_range_succ, ← hacc, h1]
      abel
    · intro w' hw'
      rcases get?_set_cases _ _ _ _ _ hw' with h | h
      · exact absurd h (fun h => WState.noConfusion h)
      · exact hdone _ h
    · intro hf w' s' hw'
      exact absurd (hfin hf w _ hw) (fun h => WState.noConfusion h)
  | closeT hcl hfed2 =>
    exact ⟨hwne, hfed, fun _ => hfed2, hpulled, hcomp, ⟨deliv, hout, hacc⟩,
      fun _ _ => rfl, hfin⟩
  | compute w i t hw =>
    have h1 := heldMS_set c.workers w _ (.computed i (fn t)) hw
    simp only [pick, wIdx] at h1
    refine ⟨set_ne_nil _ hwne _ _, hfed, htc, ?_, ?_, ⟨deliv, hout, ?_⟩, ?_, ?_⟩
    · intro w' i' t' hw'
      rcases get?_set_cases _ _ _ _ _ hw' with h | h
      · cases h
      · exact hpulled _ _ _ h
    · intro w' i' out' hw'
      rcases get?_set_cases _ _ _ _ _ hw' with h | h
      · cases h
        exact ⟨t, hpulled _ _ _ hw, rfl⟩
      · exact hcomp _ _ _ h
    · show (deliv : Multiset Nat) + heldMS (c.workers.set w (.computed i (fn t))) =
        ((List.range c.fed : List Nat) : Multiset Nat)
      rw [← hacc, add_right_cancel h1]
    · intro w' hw'
      rcases get?_set_cases _ _ _ _ _ hw' with h | h
      · exact absurd h (fun h => WState.noConfusion h)
      · exact hdone _ h
    · intro hf w' s' hw'
      exact absurd (hfin hf w _ hw) (fun h => WState.noConfusion h)
  | send w i out hfin2 hw =>
    have h1 := heldMS_set c.workers w _ (.idle : WState T R) hw
    simp only [pick, wIdx] at h1
    rw [add_zero] at h1
    obtain ⟨t, ht, hot⟩ := hcomp _ _ _ hw
    refine ⟨set_ne_nil _ hwne _ _, hfed, htc, ?_, ?_, ⟨deliv ++ [i], ?_, ?_⟩, ?_, ?_⟩
    · intro w' i' t' hw'
      rcases get?_set_cases _ _ _ _ _ hw' with h | h
      · cases h
      · exact hpulled _ _ _ h
    · intro w' i' out' hw'
      rcases get?_set_cases _ _ _ _ _ hw' with h | h
      · cases h
      · exact hcomp _ _ _ h
    · show c.outputs ++ [out] = (deliv ++ [i]).map (resultAt inputs fn)
      rw [List.map_append, hout, hot, List.map_singleton, resultAt_of_get? ht]
    · show ((deliv ++ [i] : List Nat) : Multiset Nat) +
        heldMS (c.workers.set w (.idle : WState T R)) =
        ((List.range c.fed : List Nat) : Multiset Nat)
      have h2 : ((deliv ++ [i] : List Nat) : Multiset Nat) =
          ((deliv : List Nat) : Multiset Nat) + {i} := by exact_mod_cast rfl
      rw [h2, ← hacc, ← h1]
      abel
    · intro w' hw'
      rcases get?_set_cases _ _ _ _ _ hw' with h | h
      · exact absurd h (fun h => WState.noConfusion h)
      · exact hdone _ h
    · intro hf w' s' hw'
      exact absurd (hfin hf w _ hw) (fun h => WState.noConfusion h)
  | seeClosed w hcl hw =>
    have h1 := heldMS_set c.workers w _ (.done : WState T R) hw
    simp only [pick, wIdx] at h1
    refine ⟨set_ne_nil _ hwne _ _, hfed, htc, ?_, ?_, ⟨deliv, hout, ?_⟩, ?_, ?_⟩
    · intro w' i' t' hw'
      rcases get?_set_cases _ _ _ _ _ hw' with h | h
      · cases h
      · exact hpulled _ _ _ h
    · intro w' i' out' hw'
      rcases get?_set_cases _ _ _ _ _ hw' with h | h
      · cases h
      · exact hcomp _ _ _ h
    · show (deliv : Multiset Nat) + heldMS (c.workers.set w (.done : WState T R)) =
        ((List.range c.fed : List Nat) : Multiset Nat)
      rw [← hacc, add_right_cancel h1]
    · intro w' hw'
      rcases get?_set_cases _ _ _ _ _ hw' with h | h
      · exact hcl
      · exact hdone _ h
    · intro hf w' s' hw'
      exact absurd (hfin hf w _ hw) (fun h => WState.noConfusion h)
  | finish hfin2 hall =>
    exact ⟨hwne, hfed, htc, hpulled, hcomp, ⟨deliv, hout, hacc⟩, hdone, fun _ => hall⟩

theorem heldMS_replicate_idle (W : Nat) :
    heldMS (List.replicate W (.idle : WState T R)) = 0 := by
  induction W with
  | zero => rfl
  | succ W ih =>
    rw [List.replicate_succ, heldMS_cons, ih]
    rfl

theorem draftInv_init (W : Nat) (inputs : List T) (fn : T → R) [Inhabited R] (hW : 1 ≤ W) :
    DraftInv inputs fn (initDraft W : DConfig T R) := by
  refine ⟨?_, Nat.zero_le _, ?_, ?_, ?_, ⟨[], rfl, ?_⟩, ?_, ?_⟩
  · show List.replicate W (.idle : WState T R) ≠ []
    cases W with
    | zero => omega
    | succ W => simp
  · intro h
    exact absurd h (by simp [initDraft])
  · intro w i t hw
    have hmem := List.get?_mem hw
    exact absurd (List.eq_of_mem_replicate hmem) (fun h => WState.noConfusion h)
  · intro w i out hw
    have hmem := List.get?_mem hw
    exact absurd (List.eq_of_mem_replicate hmem) (fun h => WState.noConfusion h)
  · show (([] : List Nat) : Multiset Nat) +
      heldMS (List.replicate W (.idle : WState T R)) =
      ((List.range 0 : List Nat) : Multiset Nat)
    rw [heldMS_replicate_idle]
    rfl
  · intro w hw
    have hmem := List.get?_mem hw
    exact absurd (List.eq_of_mem_replicate hmem) (fun h => WState.noConfusion h)
  · intro h
    exact absurd h (by simp [initDraft])

theorem draftInv_reach {W : Nat} {inputs : List T} {fn : T → R} [Inhabited R]
    {c : DConfig T R} (hW : 1 ≤ W) (h : DReach W inputs fn c) : DraftInv inputs fn c := by
  induction h with
  | refl => exact draftInv_init W inputs fn hW
  | tail hstar hstep ih => exact draftInv_step ih hstep

end GoHPC

namespace GoHPC

theorem draft_terminal {W : Nat} {inputs : List T} {fn : T → R} [Inhabited R]
    {c : DConfig T R} (hW : 1 ≤ W) (h : DReach W inputs fn c) (hfin : c.finished = true) :
    c.outputs.length = inputs.length ∧ c.outputs.Perm (inputs.map fn) := by
  obtain ⟨hwne, hfed, htc, hpulled, hcomp, ⟨deliv, hout, hacc⟩, hdone, hfinv⟩ :=
    draftInv_reach hW h
  have halldone := hfinv hfin
  obtain ⟨x, xs, hww⟩ : ∃ x xs, c.workers = x :: xs := by
    cases hcw : c.workers with
    | nil => exact absurd hcw hwne
    | cons x xs => exact ⟨x, xs, rfl⟩
  have hx : x = .done := halldone 0 x (by rw [hww]; rfl)
  have htcl : c.tasksClosed = true := hdone 0 (by rw [hww, hx]; rfl)
  have hfedn : c.fed = inputs.length := htc htcl
  have hheld : heldMS c.workers = 0 := heldMS_all_done c.workers halldone
  rw [hheld, add_zero, hfedn] at hacc
  have hlen : deliv.length = inputs.length := by
    have := congrArg Multiset.card hacc
    simpa using this
  refine ⟨by rw [hout, List.length_map, hlen], ?_⟩
  rw [hout, ← range_map_resultAt inputs fn, ← Multiset.coe_eq_coe]
  have h1 : ((deliv.map (resultAt inputs fn) : List R) : Multiset R) =
      Multiset.map (resultAt inputs fn) ((deliv : List Nat) : Multiset Nat) := rfl
  rw [h1, hacc]
  rfl

theorem singleInv_step {inputs : List T} {fn : T → R} {c c' : DConfig T R}
    (hinv : SingleInv inputs fn c) (hs : DStep inputs fn c c') : SingleInv inputs fn c' := by
  obtain ⟨htc, hbr⟩ := hinv
  cases hs with
  | pull w t hcl ht hw =>
    rcases hbr with ⟨hws, hout⟩ | ⟨t0, hws, hge, hgt, hout⟩ | ⟨t0, hws, hge, hgt, hout⟩ |
      ⟨hws, htcl, hout, hfedn⟩
    · rw [hws] at hw
      obtain ⟨hw0, -⟩ := get?_singleton _ _ _ hw
      subst hw0
      refine ⟨?_, Or.inr (Or.inl ⟨t, ?_, by show 1 ≤ c.fed + 1; omega, ?_, ?_⟩)⟩
      · intro h
        have := htc h
        have := (List.get?_eq_some.mp ht).1
        omega
      · show c.workers.set 0 (.pulled c.fed t) = [.pulled (c.fed + 1 - 1) t]
        rw [hws]
        rfl
      · show inputs.get? (c.fed + 1 - 1) = some t
        exact ht
      · show c.outputs = (inputs.take (c.fed + 1 - 1)).map fn
        exact hout
    · rw [hws] at hw
      obtain ⟨-, hc⟩ := get?_singleton _ _ _ hw
      exact absurd hc (fun h => WState.noConfusion h)
    · rw [hws] at hw
      obtain ⟨-, hc⟩ := get?_singleton _ _ _ hw
      exact absurd hc (fun h => WState.noConfusion h)
    · rw [hws] at hw
      obtain ⟨-, hc⟩ := get?_singleton _ _ _ hw
      exact absurd hc (fun h => WState.noConfusion h)
  | closeT hcl hfed2 =>
    refine ⟨fun _ => hfed2, ?_⟩
    rcases hbr with ⟨hws, hout⟩ | ⟨t0, hws, hge, hgt, hout⟩ | ⟨t0, hws, hge, hgt, hout⟩ |
      ⟨hws, htcl, hout, hfedn⟩
    · exact Or.inl ⟨hws, hout⟩
    · exact Or.inr (Or.inl ⟨t0, hws, hge, hgt, hout⟩)
    · exact Or.inr (Or.inr (Or.inl ⟨t0, hws, hge, hgt, hout⟩))
    · exact Or.inr (Or.inr (Or.inr ⟨hws, rfl, hout, hfedn⟩))
  | compute w i t hw =>
    rcases hbr with ⟨hws, hout⟩ | ⟨t0, hws, hge, hgt, hout⟩ | ⟨t0, hws, hge, hgt, hout⟩ |
      ⟨hws, htcl, hout, hfedn⟩
    · rw [hws] at hw
      obtain ⟨-, hc⟩ := get?_singleton _ _ _ hw
      exact absurd hc (fun h => WState.noConfusion h)
    · rw [hws] at hw
      obtain ⟨hw0, hc⟩ := get?_singleton _ _ _ hw
      subst hw0
      obtain ⟨hi, ht0⟩ : i = c.fed - 1 ∧ t = t0 := by
        cases hc
        exact ⟨rfl, rfl⟩
      subst hi; subst ht0
      refine ⟨htc, Or.inr (Or.inr (Or.inl ⟨t, ?_, hge, hgt, hout⟩))⟩
      show c.workers.set 0 (.computed (c.fed - 1) (fn t)) = [.computed (c.fed - 1) (fn t)]
      rw [hws]
      rfl
    · rw [hws] at hw
      obtain ⟨-, hc⟩ := get?_singleton _ _ _ hw
      exact absurd hc (fun h => WState.noConfusion h)
    · rw [hws] at hw
      obtain ⟨-, hc⟩ := get?_singleton _ _ _ hw
      exact absurd hc (fun h => WState.noConfusion h)
  | send w i out hfin2 hw =>
    rcases hbr with ⟨hws, hout⟩ | ⟨t0, hws, hge, hgt, hout⟩ | ⟨t0, hws, hge, hgt, hout⟩ |
      ⟨hws, htcl, hout, hfedn⟩
    · rw [hws] at hw
      obtain ⟨-, hc⟩ := get?_singleton _ _ _ hw
      exact absurd hc (fun h => WState.noConfusion h)
    · rw [hws] at hw
      obtain ⟨-, hc⟩ := get?_singleton _ _ _ hw
      exact absurd hc (fun h => WState.noConfusion h)
    · rw [hws] at hw
      obtain ⟨hw0, hc⟩ := get?_singleton _ _ _ hw
      subst hw0
      obtain ⟨hi, hot⟩ : i = c.fed - 1 ∧ out = fn t0 := by
        cases hc
        exact ⟨rfl, rfl⟩
      subst hi; subst hot
      refine ⟨htc, Or.inl ⟨?_, ?_⟩⟩
      · show c.workers.set 0 (.idle : WState T R) = [.idle]
        rw [hws]
        rfl
      · show c.outputs ++ [fn t0] = (inputs.take c.fed).map fn
        have hf1 : c.fed - 1 + 1 = c.fed := by omega
        rw [hout, ← hf1, List.take_succ]
        rw [show inputs[c.fed - 1]? = some t0 from by
          rw [← List.get?_eq_getElem?]; exact hgt]
        simp
    · rw [hws] at hw
      obtain ⟨-, hc⟩ := get?_singleton _ _ _ hw
      exact absurd hc (fun h => WState.noConfusion h)
  | seeClosed w hcl hw =>
    rcases hbr with ⟨hws, hout⟩ | ⟨t0, hws, hge, hgt, hout⟩ | ⟨t0, hws, hge, hgt, hout⟩ |
      ⟨hws, htcl, hout, hfedn⟩
    · rw [hws] at hw
      obtain ⟨hw0, -⟩ := get?_singleton _ _ _ hw
      subst hw0
      have hfedn : c.fed = inputs.length := htc hcl
      refine ⟨htc, Or.inr (Or.inr (Or.inr ⟨?_, hcl, ?_, hfedn⟩))⟩
      · show c.workers.set 0 (.done : WState T R) = [.done]
        rw [hws]
        rfl
      · rw [hout, hfedn, List.take_length]
    · rw [hws] at hw
      obtain ⟨-, hc⟩ := get?_singleton _ _ _ hw
      exact absurd hc (fun h => WState.noConfusion h)
    · rw [hws] at hw
      obtain ⟨-, hc⟩ := get?_singleton _ _ _ hw
      exact absurd hc (fun h => WState.noConfusion h)
    · rw [hws] at hw
      obtain ⟨-, hc⟩ := get?_singleton _ _ _ hw
      exact absurd hc (fun h => WState.noConfusion h)
  | finish hfin2 hall =>
    exact ⟨htc, hbr⟩

theorem singleInv_reach {inputs : List T} {fn : T → R} {c : DConfig T R}
    (h : DReach 1 inputs fn c) : SingleInv inputs fn c := by
  induction h with
  | refl =>
    refine ⟨?_, Or.inl ⟨rfl, rfl⟩⟩
    intro hcl
    exact absurd hcl (by simp [initDraft])
  | tail hstar hstep ih => exact singleInv_step ih hstep

theorem draft_single_terminal {inputs : List T} {fn : T → R} [Inhabited R]
    {c : DConfig T R} (h : DReach 1 inputs fn c) (hfin : c.finished = true) :
    c.outputs = inputs.map fn := by
  obtain ⟨-, -, -, -, -, -, -, hfinv⟩ := draftInv_reach (le_refl 1) h
  have halldone := hfinv hfin
  obtain ⟨htc, hbr⟩ := singleInv_reach h
  rcases hbr with ⟨hws, hout⟩ | ⟨t0, hws, -, -, -⟩ | ⟨t0, hws, -, -, -⟩ | ⟨-, -, hout, -⟩
  · exact absurd (halldone 0 _ (by rw [hws]; rfl)) (fun h => WState.noConfusion h)
  · exact absurd (halldone 0 _ (by rw [hws]; rfl)) (fun h => WState.noConfusion h)
  · exact absurd (halldone 0 _ (by rw [hws]; rfl)) (fun h => WState.noConfusion h)
  · exact hout

theorem forall_done_two : ∀ (w : Nat) (s : WState Nat Nat),
    ([.done, .done] : List (WState Nat Nat)).get? w = some s → s = .done := by
  intro w s hw
  match w with
  | 0 => cases hw; rfl
  | 1 => cases hw; rfl
  | n + 2 => cases hw

theorem forall_done_one : ∀ (w : Nat) (s : WState Nat Nat),
    ([.done] : List (WState Nat Nat)).get? w = some s → s = .done := by
  intro w s hw
  match w with
  | 0 => cases hw; rfl
  | n + 1 => cases hw

theorem draftTraceTwo :
    DReach 2 [1, 2] (fun x => x * x)
      (⟨2, true, [.done, .done], [4, 1], true⟩ : DConfig Nat Nat) := by
  refine Relation.ReflTransGen.head (DStep.pull _ 0 1 rfl rfl rfl) ?_
  refine Relation.ReflTransGen.head (DStep.pull _ 1 2 rfl rfl rfl) ?_
  refine Relation.ReflTransGen.head (DStep.compute _ 1 1 2 rfl) ?_
  refine Relation.ReflTransGen.head (DStep.send _ 1 1 4 rfl rfl) ?_
  refine Relation.ReflTransGen.head (DStep.compute _ 0 0 1 rfl) ?_
  refine Relation.ReflTransGen.head (DStep.send _ 0 0 1 rfl rfl) ?_
  refine Relation.ReflTransGen.head (DStep.closeT _ rfl rfl) ?_
  refine Relation.ReflTransGen.head (DStep.seeClosed _ 0 rfl rfl) ?_
  refine Relation.ReflTransGen.head (DStep.seeClosed _ 1 rfl rfl) ?_
  refine Relation.ReflTransGen.head (DStep.finish _ rfl forall_done_two) ?_
  exact Relation.ReflTransGen.refl

theorem draftTraceOne :
    DReach 1 [5] (fun x => x * x) (⟨1, true, [.done], [25], true⟩ : DConfig Nat Nat) := by
  refine Relation.ReflTransGen.head (DStep.pull _ 0 5 rfl rfl rfl) ?_
  refine Relation.ReflTransGen.head (DStep.compute _ 0 0 5 rfl) ?_
  refine Relation.ReflTransGen.head (DStep.send _ 0 0 25 rfl rfl) ?_
  refine Relation.ReflTransGen.head (DStep.closeT _ rfl rfl) ?_
  refine Relation.ReflTransGen.head (DStep.seeClosed _ 0 rfl rfl) ?_
  refine Relation.ReflTransGen.head (DStep.finish _ rfl forall_done_one) ?_
  exact Relation.ReflTransGen.refl

end GoHPC

namespace GoHPC

/-- **C8** (confirmed).  For the draft `Run` (no context parameter, collecting
by append): with at least one worker, every completed execution returns a
slice whose length equals the input length and which, as a multiset, equals
the multiset of `fn` over the inputs; with exactly one worker the returned
slice is the in-order map of `fn` over the inputs; and with two workers there
is an execution of inputs `[1, 2]` under squaring whose slot 0 is not
`fn(inputs[0])` (the result `[4, 1]`), so per-index order is not guaranteed. -/
theorem draftRun_multiset :
    (∀ (T R : Type) [Inhabited R] (W : Nat) (inputs : List T) (fn : T → R) (c : DConfig T R),
        1 ≤ W → DReach W inputs fn c → c.finished = true →
        c.outputs.length = inputs.length ∧ c.outputs.Perm (inputs.map fn)) ∧
    (∀ (T R : Type) [Inhabited R] (inputs : List T) (fn : T → R) (c : DConfig T R),
        DReach 1 inputs fn c → c.finished = true → c.outputs = inputs.map fn) ∧
    (∃ c : DConfig Nat Nat, DReach 2 [1, 2] (fun x => x * x) c ∧ c.finished = true ∧
        c.outputs = [4, 1] ∧ c.outputs ≠ [1, 2].map (fun x => x * x)) := by
  refine ⟨?_, ?_, ?_⟩
  · intro T R _ W inputs fn c hW hreach hfin
    exact draft_terminal hW hreach hfin
  · intro T R _ inputs fn c hreach hfin
    exact draft_single_terminal hreach hfin
  · exact ⟨_, draftTraceTwo, rfl, rfl, by decide⟩

/-- Witness for `draftRun_multiset`: the one-worker run on input `[5]` under
squaring returns exactly `[25]`. -/
theorem draftRun_multiset_witness : ([25] : List Nat) = [5].map (fun x => x * x) :=
  draftRun_multiset.2.1 Nat Nat [5] (fun x => x * x)
    (⟨1, true, [.done], [25], true⟩ : DConfig Nat Nat) draftTraceOne rfl

end GoHPC

namespace GoHPC

theorem coe_cons_ms (i : Nat) (l : List Nat) :
    ((i :: l : List Nat) : Multiset Nat) = {i} + (l : Multiset Nat) := by
  rw [Multiset.singleton_add]
  exact (Multiset.cons_coe i l).symm

theorem coe_map_fst_append {R : Type} (l : List (Nat × R)) (i : Nat) (out : R) :
    (((l ++ [(i, out)]).map Prod.fst : List Nat) : Multiset Nat) =
      ((l.map Prod.fst : List Nat) : Multiset Nat) + {i} := by
  rw [List.map_append]
  exact_mod_cast rfl

theorem exists_cons_of_ne_nil {α : Type} {l : List α} (h : l ≠ []) :
    ∃ x xs, l = x :: xs := by
  cases hc : l with
  | nil => exact absurd hc h
  | cons x xs => exact ⟨x, xs, rfl⟩

end GoHPC

namespace GoHPC

theorem poolInv_step {inputs : List T} {fn : T → R} [Inhabited R] {c c' : PConfig T R}
    (hinv : PoolInv inputs fn c) (hs : PStep inputs fn c c') : PoolInv inputs fn c' := by
  obtain ⟨hwne, hfed, houtlen, htc, hpulled, hcomp, hbuf,
    ⟨deliv, hdlen, hdout, hacc⟩, hdone, hrescl, hret⟩ := hinv
  cases hs with
  | cancel h =>
    refine ⟨hwne, hfed, houtlen, htc, hpulled, hcomp, hbuf,
      ⟨deliv, hdlen, hdout, ?_⟩, ?_, hrescl, ?_⟩
    · intro hnc; exact Bool.noConfusion hnc
    · intro hnc; exact Bool.noConfusion hnc
    · intro hnc; exact Bool.noConfusion hnc
  | dispatchHandOff w t hd ht hw =>
    have hflt : c.fed < inputs.length := (List.get?_eq_some.mp ht).1
    have h1 := heldMS_set c.workers w _ (.pulled c.fed t) hw
    simp only [pick, wIdx] at h1
    rw [add_zero] at h1
    refine ⟨set_ne_nil _ hwne _ _, ?_, houtlen, ?_, ?_, ?_, hbuf,
      ⟨deliv, hdlen, hdout, ?_⟩, ?_, ?_, ?_⟩
    · show c.fed + 1 ≤ inputs.length
      omega
    · intro h
      have := htc h
      omega
    · intro w' i' t' hw'
      rcases get?_set_cases _ _ _ _ _ hw' with h | h
      · cases h; exact ht
      · exact hpulled _ _ _ h
    · intro w' i' out' hw'
      rcases get?_set_cases _ _ _ _ _ hw' with h | h
      · cases h
      · exact hcomp _ _ _ h
    · intro hnc
      show ((deliv : Multiset Nat) + ((c.resultsBuf.map Prod.fst : List Nat) : Multiset Nat))
          + heldMS (c.workers.set w (.pulled c.fed t)) =
          ((List.range (c.fed + 1) : List Nat) : Multiset Nat)
      rw [coe_range_succ, ← hacc hnc, h1]
      abel
    · intro hnc w' hw'
      rcases get?_set_cases _ _ _ _ _ hw' with h | h
      · exact absurd h (fun h => WState.noConfusion h)
      · exact hdone hnc _ h
    · intro hrc w' s' hw'
      exact absurd (hrescl hrc _ _ hw) (fun h => WState.noConfusion h)
    · intro hnc v hv
      exact hret hnc v hv
  | dispatchClose hd hfed2 =>
    refine ⟨hwne, hfed, houtlen, fun _ => hfed2, hpulled, hcomp, hbuf,
      ⟨deliv, hdlen, hdout, hacc⟩, ?_, hrescl, hret⟩
    intro hnc w' hw'
    rfl
  | dispatchAbort hd hc hflt =>
    exact ⟨hwne, hfed, houtlen, htc, hpulled, hcomp, hbuf,
      ⟨deliv, hdlen, hdout, hacc⟩, hdone, hrescl, hret⟩
  | workerAbortIdle w hc hw =>
    refine ⟨set_ne_nil _ hwne _ _, hfed, houtlen, htc, ?_, ?_, hbuf,
      ⟨deliv, hdlen, hdout, ?_⟩, ?_, ?_, ?_⟩
    · intro w' i' t' hw'
      rcases get?_set_cases _ _ _ _ _ hw' with h | h
      · cases h
      · exact hpulled _ _ _ h
    · intro w' i' out' hw'
      rcases get?_set_cases _ _ _ _ _ hw' with h | h
      · cases h
      · exact hcomp _ _ _ h
    · intro hnc
      rw [hc] at hnc
      exact Bool.noConfusion hnc
    · intro hnc
      rw [hc] at hnc
      exact Bool.noConfusion hnc
    · intro hrc w' s' hw'
      exact absurd (hrescl hrc _ _ hw) (fun h => WState.noConfusion h)
    · intro hnc
      rw [hc] at hnc
      exact Bool.noConfusion hnc
  | workerSeeClosed w hcl hw =>
    have h1 := heldMS_set c.workers w _ (.done : WState T R) hw
    simp only [pick, wIdx] at h1
    refine ⟨set_ne_nil _ hwne _ _, hfed, houtlen, htc, ?_, ?_, hbuf,
      ⟨deliv, hdlen, hdout, ?_⟩, ?_, ?_, ?_⟩
    · intro w' i' t' hw'
      rcases get?_set_cases _ _ _ _ _ hw' with h | h
      · cases h
      · exact hpulled _ _ _ h
    · intro w' i' out' hw'
      rcases get?_set_cases _ _ _ _ _ hw' with h | h
      · cases h
      · exact hcomp _ _ _ h
    · intro hnc
      show ((deliv : Multiset Nat) + ((c.resultsBuf.map Prod.fst : List Nat) : Multiset Nat))
          + heldMS (c.workers.set w (.done : WState T R)) =
          ((List.range c.fed : List Nat) : Multiset Nat)
      rw [← hacc hnc, add_right_cancel h1]
    · intro hnc w' hw'
      rcases get?_set_cases _ _ _ _ _ hw' with h | h
      · exact hcl
      · exact hdone hnc _ h
    · intro hrc w' s' hw'
      exact absurd (hrescl hrc _ _ hw) (fun h => WState.noConfusion h)
    · intro hnc v hv
      exact hret hnc v hv
  | workerAbortPulled w i t hc hw =>
    refine ⟨set_ne_nil _ hwne _ _, hfed, houtlen, htc, ?_, ?_, hbuf,
      ⟨deliv, hdlen, hdout, ?_⟩, ?_, ?_, ?_⟩
    · intro w' i' t' hw'
      rcases get?_set_cases _ _ _ _ _ hw' with h | h
      · cases h
      · exact hpulled _ _ _ h
    · intro w' i' out' hw'
      rcases get?_set_cases _ _ _ _ _ hw' with h | h
      · cases h
      · exact hcomp _ _ _ h
    · intro hnc
      rw [hc] at hnc
      exact Bool.noConfusion hnc
    · intro hnc
      rw [hc] at hnc
      exact Bool.noConfusion hnc
    · intro hrc w' s' hw'
      exact absurd (hrescl hrc _ _ hw) (fun h => WState.noConfusion h)
    · intro hnc
      rw [hc] at hnc
      exact Bool.noConfusion hnc
  | workerCompute w i t hc hw =>
    have h1 := heldMS_set c.workers w _ (.computed i (fn t)) hw
    simp only [pick, wIdx] at h1
    refine ⟨set_ne_nil _ hwne _ _, hfed, houtlen, htc, ?_, ?_, hbuf,
      ⟨deliv, hdlen, hdout, ?_⟩, ?_, ?_, ?_⟩
    · intro w' i' t' hw'
      rcases get?_set_cases _ _ _ _ _ hw' with h | h
      · cases h
      · exact hpulled _ _ _ h
    · intro w' i' out' hw'
      rcases get?_set_cases _ _ _ _ _ hw' with h | h
      · cases h
        exact ⟨t, hpulled _ _ _ hw, rfl⟩
      · exact hcomp _ _ _ h
    · intro hnc
      show ((deliv : Multiset Nat) + ((c.resultsBuf.map Prod.fst : List Nat) : Multiset Nat))
          + heldMS (c.workers.set w (.computed i (fn t))) =
          ((List.range c.fed : List Nat) : Multiset Nat)
      rw [← hacc hnc, add_right_cancel h1]
    · intro hnc w' hw'
      rcases get?_set_cases _ _ _ _ _ hw' with h | h
      · exact absurd h (fun h => WState.noConfusion h)
      · exact hdone hnc _ h
    · intro hrc w' s' hw'
      exact absurd (hrescl hrc _ _ hw) (fun h => WState.noConfusion h)
    · intro hnc v hv
      exact hret hnc v hv
  | workerAbortSend w i out hc hw =>
    refine ⟨set_ne_nil _ hwne _ _, hfed, houtlen, htc, ?_, ?_, hbuf,
      ⟨deliv, hdlen, hdout, ?_⟩, ?_, ?_, ?_⟩
    · intro w' i' t' hw'
      rcases get?_set_cases _ _ _ _ _ hw' with h | h
      · cases h
      · exact hpulled _ _ _ h
    · intro w' i' out' hw'
      rcases get?_set_cases _ _ _ _ _ hw' with h | h
      · cases h
      · exact hcomp _ _ _ h
    · intro hnc
      rw [hc] at hnc
      exact Bool.noConfusion hnc
    · intro hnc
      rw [hc] at hnc
      exact Bool.noConfusion hnc
    · intro hrc w' s' hw'
      exact absurd (hrescl hrc _ _ hw) (fun h => WState.noConfusion h)
    · intro hnc
      rw [hc] at hnc
      exact Bool.noConfusion hnc
  | workerSend w i out hcap hw =>
    have h1 := heldMS_set c.workers w _ (.idle : WState T R) hw
    simp only [pick, wIdx] at h1
    rw [add_zero] at h1
    refine ⟨set_ne_nil _ hwne _ _, hfed, houtlen, htc, ?_, ?_, ?_,
      ⟨deliv, hdlen, hdout, ?_⟩, ?_, ?_, ?_⟩
    · intro w' i' t' hw'
      rcases get?_set_cases _ _ _ _ _ hw' with h | h
      · cases h
      · exact hpulled _ _ _ h
    · intro w' i' out' hw'
      rcases get?_set_cases _ _ _ _ _ hw' with h | h
      · cases h
      · exact hcomp _ _ _ h
    · intro p hp
      rcases List.mem_append.mp hp with h | h
      · exact hbuf p h
      · simp only [List.mem_singleton] at h
        subst h
        exact hcomp _ _ _ hw
    · intro hnc
      show ((deliv : Multiset Nat) +
          (((c.resultsBuf ++ [(i, out)]).map Prod.fst : List Nat) : Multiset Nat))
          + heldMS (c.workers.set w (.idle : WState T R)) =
          ((List.range c.fed : List Nat) : Multiset Nat)
      rw [coe_map_fst_append, ← hacc hnc, ← h1]
      abel
    · intro hnc w' hw'
      rcases get?_set_cases _ _ _ _ _ hw' with h | h
      · exact absurd h (fun h => WState.noConfusion h)
      · exact hdone hnc _ h
    · intro hrc w' s' hw'
      exact absurd (hrescl hrc _ _ hw) (fun h => WState.noConfusion h)
    · intro hnc v hv
      exact hret hnc v hv
  | closeResults h hall =>
    exact ⟨hwne, hfed, houtlen, htc, hpulled, hcomp, hbuf,
      ⟨deliv, hdlen, hdout, hacc⟩, hdone, fun _ => hall, hret⟩
  | collectCancel hc hret2 hlt =>
    refine ⟨hwne, hfed, houtlen, htc, hpulled, hcomp, hbuf,
      ⟨deliv, hdlen, hdout, hacc⟩, hdone, hrescl, ?_⟩
    intro hnc
    rw [hc] at hnc
    exact Bool.noConfusion hnc
  | collectRecv i out rest hret2 hlt hbuf2 =>
    have hhead : (i, out) ∈ c.resultsBuf := by
      rw [hbuf2]
      exact List.mem_cons_self _ _
    obtain ⟨t0, ht0, hout0⟩ := hbuf _ hhead
    have hilt : i < inputs.length := (List.get?_eq_some.mp ht0).1
    refine ⟨hwne, hfed, ?_, htc, hpulled, hcomp, ?_,
      ⟨i :: deliv, ?_, ?_, ?_⟩, hdone, hrescl, ?_⟩
    · show (c.outputs.set i out).length = inputs.length
      rw [List.length_set]
      exact houtlen
    · intro p hp
      apply hbuf
      rw [hbuf2]
      exact List.mem_cons_of_mem _ hp
    · show (i :: deliv).length = c.collected + 1
      simp [hdlen]
    · intro j hj
      rcases List.mem_cons.mp hj with h | h
      · subst h
        refine ⟨t0, ht0, ?_⟩
        rw [List.get?_set_eq_of_lt _ (by rw [houtlen]; exact hilt)]
        exact congrArg some hout0
      · obtain ⟨t, htj, houtj⟩ := hdout j h
        by_cases hji : j = i
        · subst hji
          refine ⟨t, htj, ?_⟩
          rw [List.get?_set_eq_of_lt _ (by rw [houtlen]; exact hilt)]
          rw [htj] at ht0
          cases ht0
          exact congrArg some hout0
        · refine ⟨t, htj, ?_⟩
          rw [List.get?_set_ne _ _ (fun h => hji h.symm)]
          exact houtj
    · intro hnc
      show ((i :: deliv : List Nat) : Multiset Nat) +
          ((rest.map Prod.fst : List Nat) : Multiset Nat) +
          heldMS c.workers = ((List.range c.fed : List Nat) : Multiset Nat)
      have hold := hacc hnc
      rw [hbuf2] at hold
      rw [coe_cons_ms]
      rw [show ((((i, out) :: rest).map Prod.fst : List Nat) : Multiset Nat) =
        {i} + ((rest.map Prod.fst : List Nat) : Multiset Nat) from by
          rw [List.map_cons]; exact coe_cons_ms i _] at hold
      rw [← hold]
      abel
    · intro hnc v hv
      exact hret hnc v hv
  | collectClosed hret2 hlt hcl hemp =>
    refine ⟨hwne, hfed, houtlen, htc, hpulled, hcomp, hbuf,
      ⟨deliv, hdlen, hdout, hacc⟩, hdone, hrescl, ?_⟩
    intro hnc v hv
    exfalso
    have halldone := hrescl hcl
    obtain ⟨x, xs, hww⟩ := exists_cons_of_ne_nil hwne
    have hx : x = .done := halldone 0 x (by rw [hww]; rfl)
    have htcl : c.tasksClosed = true := hdone hnc 0 (by rw [hww, hx]; rfl)
    have hfedn : c.fed = inputs.length := htc htcl
    have hheld : heldMS c.workers = 0 := heldMS_all_done c.workers halldone
    have hA := hacc hnc
    rw [hheld, hemp, hfedn] at hA
    simp only [List.map_nil] at hA
    have hcard := congrArg Multiset.card hA
    simp only [Multiset.coe_card, Multiset.card_add, Multiset.card_zero,
      List.length_range, add_zero, List.length_nil] at hcard
    rw [hdlen] at hcard
    omega
  | collectFinish hret2 heq =>
    refine ⟨hwne, hfed, houtlen, htc, hpulled, hcomp, hbuf,
      ⟨deliv, hdlen, hdout, hacc⟩, hdone, hrescl, ?_⟩
    intro hnc v hv
    have hA := hacc hnc
    have hle : ((deliv : List Nat) : Multiset Nat) ≤
        ((List.range c.fed : List Nat) : Multiset Nat) := by
      rw [Multiset.le_iff_exists_add]
      refine ⟨((c.resultsBuf.map Prod.fst : List Nat) : Multiset Nat) +
        heldMS c.workers, ?_⟩
      rw [← hA]
      abel
    have hcardle : Multiset.card ((List.range c.fed : List Nat) : Multiset Nat) ≤
        Multiset.card ((deliv : List Nat) : Multiset Nat) := by
      simp only [Multiset.coe_card, List.length_range, hdlen, heq]
      exact hfed
    have hdeq := Multiset.eq_of_le_of_card_le hle hcardle
    have hfedn : c.fed = inputs.length := by
      have := congrArg Multiset.card hdeq
      simp only [Multiset.coe_card, List.length_range, hdlen, heq] at this
      omega
    have houteq : c.outputs = inputs.map fn := by
      apply List.ext
      intro j
      by_cases hj : j < inputs.length
      · have hjmem : j ∈ deliv := by
          have : j ∈ ((deliv : List Nat) : Multiset Nat) := by
            rw [hdeq]
            rw [Multiset.mem_coe]
            rw [List.mem_range]
            omega
          rwa [Multiset.mem_coe] at this
        obtain ⟨t, htj, houtj⟩ := hdout j hjmem
        rw [houtj, List.get?_map, htj]
        rfl
      · rw [List.get?_eq_none.mpr (by rw [houtlen]; omega),
          List.get?_eq_none.mpr (by rw [List.length_map]; omega)]
    cases hv
    rw [houteq]

theorem poolInv_init (W : Nat) (inputs : List T) (fn : T → R) [Inhabited R] (hW : 1 ≤ W) :
    PoolInv inputs fn (initConfig W inputs : PConfig T R) := by
  refine ⟨?_, Nat.zero_le _, ?_, ?_, ?_, ?_, ?_, ⟨[], rfl, ?_, ?_⟩, ?_, ?_, ?_⟩
  · show List.replicate W (.idle : WState T R) ≠ []
    cases W with
    | zero => omega
    | succ W => simp
  · show (List.replicate inputs.length (default : R)).length = inputs.length
    exact List.length_replicate _ _
  · intro h
    exact absurd h (by simp [initConfig])
  · intro w i t hw
    exact absurd (List.eq_of_mem_replicate (List.get?_mem hw))
      (fun h => WState.noConfusion h)
  · intro w i out hw
    exact absurd (List.eq_of_mem_replicate (List.get?_mem hw))
      (fun h => WState.noConfusion h)
  · intro p hp
    exact absurd hp (by simp [initConfig])
  · intro j hj
    exact absurd hj (by simp)
  · intro hnc
    show (([] : List Nat) : Multiset Nat) + (([] : List (Nat × R)).map Prod.fst : List Nat)
        + heldMS (List.replicate W (.idle : WState T R)) =
        ((List.range 0 : List Nat) : Multiset Nat)
    rw [heldMS_replicate_idle]
    rfl
  · intro hnc w hw
    exact absurd (List.eq_of_mem_replicate (List.get?_mem hw))
      (fun h => WState.noConfusion h)
  · intro h
    exact absurd h (by simp [initConfig])
  · intro hnc v hv
    exact absurd hv (by simp [initConfig])

theorem poolInv_reach {W : Nat} {inputs : List T} {fn : T → R} [Inhabited R]
    {c : PConfig T R} (hW : 1 ≤ W) (h : PReach W inputs fn c) : PoolInv inputs fn c := by
  induction h with
  | refl => exact poolInv_init W inputs fn hW
  | tail hstar hstep ih => exact poolInv_step ih hstep

end GoHPC

namespace GoHPC

theorem dispInv_step {inputs : List T} {fn : T → R} {c c' : PConfig T R}
    (hinv : DispInv inputs c) (hs : PStep inputs fn c c') : DispInv inputs c' := by
  obtain ⟨hfed, hcl, hab, hlog1, hlog2⟩ := hinv
  cases hs
  case dispatchHandOff w t hd ht hw =>
    have hflt : c.fed < inputs.length := (List.get?_eq_some.mp ht).1
    refine ⟨?_, ?_, ?_, ?_, ?_⟩
    · show c.fed + 1 ≤ inputs.length
      omega
    · intro h
      have := (hcl h).1
      rw [hd] at this
      exact absurd this (fun h => DispState.noConfusion h)
    · intro h
      rw [hd] at h
      exact absurd h (fun h => DispState.noConfusion h)
    · show (c.dispLog ++ [(c.fed, t)]).map Prod.fst = List.range (c.fed + 1)
      rw [List.map_append, hlog1, List.range_succ]
      rfl
    · show (c.dispLog ++ [(c.fed, t)]).map Prod.snd = inputs.take (c.fed + 1)
      rw [List.map_append, hlog2, List.take_succ,
        show inputs[c.fed]? = some t from by rw [← List.get?_eq_getElem?]; exact ht]
      rfl
  case dispatchClose hd hfed2 =>
    refine ⟨hfed, fun _ => ⟨rfl, hfed2⟩, ?_, hlog1, hlog2⟩
    intro h
    exact absurd h (fun h => DispState.noConfusion h)
  case dispatchAbort hd hc hflt =>
    refine ⟨hfed, ?_, ?_, hlog1, hlog2⟩
    · intro h
      have := (hcl h).1
      rw [hd] at this
      exact absurd this (fun h => DispState.noConfusion h)
    · intro h
      cases htcb : c.tasksClosed with
      | false => rfl
      | true =>
        have := (hcl htcb).1
        rw [hd] at this
        exact absurd this (fun h => DispState.noConfusion h)
  all_goals exact ⟨hfed, hcl, hab, hlog1, hlog2⟩

theorem dispInv_reach {W : Nat} {inputs : List T} {fn : T → R} [Inhabited R]
    {c : PConfig T R} (h : PReach W inputs fn c) : DispInv inputs c := by
  induction h with
  | refl =>
    refine ⟨Nat.zero_le _, ?_, ?_, rfl, rfl⟩
    · intro h
      exact absurd h (by simp [initConfig])
    · intro h
      exact absurd h (by simp [initConfig])
  | tail hstar hstep ih => exact dispInv_step ih hstep

theorem aborted_persists {inputs : List T} {fn : T → R} {c c' : PConfig T R}
    (hab : c.dispatcher = .aborted) (hcl : c.tasksClosed = false)
    (h : Relation.ReflTransGen (PStep inputs fn) c c') :
    c'.dispatcher = .aborted ∧ c'.tasksClosed = false := by
  induction h with
  | refl => exact ⟨hab, hcl⟩
  | tail hstar hstep ih =>
    obtain ⟨ih1, ih2⟩ := ih
    cases hstep
    case dispatchHandOff w t hd ht hw =>
      rw [ih1] at hd
      exact absurd hd (fun h => DispState.noConfusion h)
    case dispatchClose hd hfed2 =>
      rw [ih1] at hd
      exact absurd hd (fun h => DispState.noConfusion h)
    case dispatchAbort hd hc hflt =>
      rw [ih1] at hd
      exact absurd hd (fun h => DispState.noConfusion h)
    all_goals exact ⟨ih1, ih2⟩

theorem errInv_step {inputs : List T} {fn : T → R} {c c' : PConfig T R}
    (hinv : ErrInv c) (hs : PStep inputs fn c c') : ErrInv c' := by
  cases hs
  case collectCancel hc hret2 hlt =>
    intro out e hv
    cases hv
    exact ⟨rfl, rfl⟩
  case collectClosed hret2 hlt hcl hemp =>
    intro out e hv
    simp at hv
  case collectFinish hret2 heq =>
    intro out e hv
    simp at hv
  all_goals exact hinv

theorem errInv_reach {W : Nat} {inputs : List T} {fn : T → R} [Inhabited R]
    {c : PConfig T R} (h : PReach W inputs fn c) : ErrInv c := by
  induction h with
  | refl =>
    intro out e hv
    exact absurd hv (by simp [initConfig])
  | tail hstar hstep ih => exact errInv_step ih hstep

theorem emptyInv_step {fn : T → R} {c c' : PConfig T R}
    (h : EmptyInv c) (hs : PStep ([] : List T) fn c c') : EmptyInv c' := by
  obtain ⟨hfed0, hbufe, houte, hcol0, hws, hrv⟩ := h
  cases hs
  case dispatchHandOff w t hd ht hw =>
    exact absurd ht (by simp)
  case dispatchAbort hd hc hflt =>
    exact absurd hflt (by simp)
  case workerAbortIdle w hc hw =>
    refine ⟨hfed0, hbufe, houte, hcol0, ?_, hrv⟩
    intro w' s' hw'
    rcases get?_set_cases _ _ _ _ _ hw' with h | h
    · exact Or.inr h
    · exact hws _ _ h
  case workerSeeClosed w hcl hw =>
    refine ⟨hfed0, hbufe, houte, hcol0, ?_, hrv⟩
    intro w' s' hw'
    rcases get?_set_cases _ _ _ _ _ hw' with h | h
    · exact Or.inr h
    · exact hws _ _ h
  case workerAbortPulled w i t hc hw =>
    rcases hws _ _ hw with h | h
    · exact absurd h (fun h => WState.noConfusion h)
    · exact absurd h (fun h => WState.noConfusion h)
  case workerCompute w i t hc hw =>
    rcases hws _ _ hw with h | h
    · exact absurd h (fun h => WState.noConfusion h)
    · exact absurd h (fun h => WState.noConfusion h)
  case workerAbortSend w i out hc hw =>
    rcases hws _ _ hw with h | h
    · exact absurd h (fun h => WState.noConfusion h)
    · exact absurd h (fun h => WState.noConfusion h)
  case workerSend w i out hcap hw =>
    rcases hws _ _ hw with h | h
    · exact absurd h (fun h => WState.noConfusion h)
    · exact absurd h (fun h => WState.noConfusion h)
  case collectCancel hc hret2 hlt =>
    exact absurd hlt (by simp)
  case collectRecv i out rest hret2 hlt hbuf2 =>
    exact absurd hlt (by simp)
  case collectClosed hret2 hlt hcl hemp =>
    exact absurd hlt (by simp)
  case collectFinish hret2 heq =>
    refine ⟨hfed0, hbufe, houte, hcol0, hws, ?_⟩
    intro v hv
    cases hv
    rw [houte]
  all_goals exact ⟨hfed0, hbufe, houte, hcol0, hws, hrv⟩

theorem emptyInv_reach {W : Nat} {fn : T → R} [Inhabited R] {c : PConfig T R}
    (h : PReach W ([] : List T) fn c) : EmptyInv c := by
  induction h with
  | refl =>
    refine ⟨rfl, rfl, rfl, rfl, ?_, ?_⟩
    · intro w s hw
      exact Or.inl (List.eq_of_mem_replicate (List.get?_mem hw))
    · intro v hv
      exact absurd hv (by simp [initConfig])
  | tail hstar hstep ih => exact emptyInv_step ih hstep

end GoHPC

namespace GoHPC

theorem scenarioATrace :
    PReach 2 [1, 2, 3, 4] (fun x => x * x) scenarioACfg := by
  refine Relation.ReflTransGen.head (PStep.dispatchHandOff _ 0 1 rfl rfl rfl) ?_
  refine Relation.ReflTransGen.head (PStep.workerCompute _ 0 0 1 rfl rfl) ?_
  refine Relation.ReflTransGen.head (PStep.workerSend _ 0 0 1 (by decide) rfl) ?_
  refine Relation.ReflTransGen.head (PStep.collectRecv _ 0 1 [] rfl (by decide) rfl) ?_
  refine Relation.ReflTransGen.head (PStep.dispatchHandOff _ 0 2 rfl rfl rfl) ?_
  refine Relation.ReflTransGen.head (PStep.workerCompute _ 0 1 2 rfl rfl) ?_
  refine Relation.ReflTransGen.head (PStep.workerSend _ 0 1 4 (by decide) rfl) ?_
  refine Relation.ReflTransGen.head (PStep.collectRecv _ 1 4 [] rfl (by decide) rfl) ?_
  refine Relation.ReflTransGen.head (PStep.dispatchHandOff _ 0 3 rfl rfl rfl) ?_
  refine Relation.ReflTransGen.head (PStep.workerCompute _ 0 2 3 rfl rfl) ?_
  refine Relation.ReflTransGen.head (PStep.workerSend _ 0 2 9 (by decide) rfl) ?_
  refine Relation.ReflTransGen.head (PStep.collectRecv _ 2 9 [] rfl (by decide) rfl) ?_
  refine Relation.ReflTransGen.head (PStep.dispatchHandOff _ 0 4 rfl rfl rfl) ?_
  refine Relation.ReflTransGen.head (PStep.workerCompute _ 0 3 4 rfl rfl) ?_
  refine Relation.ReflTransGen.head (PStep.workerSend _ 0 3 16 (by decide) rfl) ?_
  refine Relation.ReflTransGen.head (PStep.collectRecv _ 3 16 [] rfl (by decide) rfl) ?_
  refine Relation.ReflTransGen.head (PStep.collectFinish _ rfl rfl) ?_
  exact Relation.ReflTransGen.refl

theorem poolCancelTrace :
    PReach 1 [1, 2] (fun x => x * x) cexCancelCfg := by
  refine Relation.ReflTransGen.head (PStep.cancel _ rfl) ?_
  refine Relation.ReflTransGen.head (PStep.collectCancel _ rfl rfl (by decide)) ?_
  exact Relation.ReflTransGen.refl

theorem poolAbortTrace :
    PReach 1 [1] (fun x => x * x) cexAbortCfg := by
  refine Relation.ReflTransGen.head (PStep.cancel _ rfl) ?_
  refine Relation.ReflTransGen.head (PStep.dispatchAbort _ rfl rfl (by decide)) ?_
  exact Relation.ReflTransGen.refl

theorem emptyRetTrace :
    PReach 2 ([] : List Nat) (fun x => x * x) emptyRetCfg :=
  Relation.ReflTransGen.single
    (PStep.collectFinish (initConfig 2 ([] : List Nat)) rfl rfl)

/-- **C1** (confirmed).  For every worker count `W ≥ 1`, every input list and
every deterministic work function, whenever a run of pool.go's `Run` in which
the context never fired returns, it returns exactly the in-order image of the
inputs under the work function together with a nil error — regardless of `W`
and of the interleaving. -/
theorem poolRun_preserves_order (T R : Type) [Inhabited R] (W : Nat) (inputs : List T)
    (fn : T → R) (c : PConfig T R) (hW : 1 ≤ W) (h : PReach W inputs fn c)
    (hnc : c.cancelled = false) (v : Option (List R) × Option RunError)
    (hv : c.retval = some v) : v = (some (inputs.map fn), none) := by
  obtain ⟨-, -, -, -, -, -, -, -, -, -, hret⟩ := poolInv_reach hW h
  exact hret hnc v hv

/-- Witness for `poolRun_preserves_order`: concrete scenario A — inputs
`[1,2,3,4]`, `fn x = x*x`, two workers — returns `[1,4,9,16]` and a nil error. -/
theorem poolRun_preserves_order_witness :
    ((some [1, 4, 9, 16] : Option (List Nat)), (none : Option RunError)) =
      (some ([1, 2, 3, 4].map (fun x => x * x)), none) :=
  poolRun_preserves_order Nat Nat 2 [1, 2, 3, 4] (fun x => x * x) scenarioACfg
    (by decide) scenarioATrace rfl _ rfl

/-- **C2** (corrected).  Whenever pool.go's `Run` returns a non-nil error, the
error is the context's cancellation error and the returned slice is *nil* (the
collector's cancellation branch runs `return nil, ctx.Err()`): the run does
not return a length-preserving, zero-padded output on cancellation. -/
theorem poolRun_cancel_nil (T R : Type) [Inhabited R] (W : Nat) (inputs : List T)
    (fn : T → R) (c : PConfig T R) (h : PReach W inputs fn c) :
    ∀ out e, c.retval = some (out, some e) → out = none ∧ e = RunError.ctxCanceled :=
  errInv_reach h

/-- Witness for `poolRun_cancel_nil` at the concrete cancelled run on `[1, 2]`. -/
theorem poolRun_cancel_nil_witness :
    (none : Option (List Nat)) = none ∧ RunError.ctxCanceled = RunError.ctxCanceled :=
  poolRun_cancel_nil Nat Nat 1 [1, 2] (fun x => x * x) cexCancelCfg poolCancelTrace
    none RunError.ctxCanceled rfl

/-- **C2 counterexample**.  On inputs `[1, 2]` the context fires before
anything is collected and `Run` returns through the cancellation branch: the
returned slice is `nil` (`none`), not the length-2 zero-value slice `[0, 0]`
the claim requires. -/
theorem poolRun_cancel_counterexample :
    PReach 1 [1, 2] (fun x => x * x) cexCancelCfg ∧
    cexCancelCfg.cancelled = true ∧ cexCancelCfg.collected = 0 ∧
    cexCancelCfg.retval = some (none, some RunError.ctxCanceled) ∧
    (none : Option (List Nat)) ≠ some [0, 0] :=
  ⟨poolCancelTrace, rfl, rfl, rfl, by decide⟩

/-- **C4** (confirmed).  With the empty input list, for every worker count:
any return of `Run` is the empty slice with a nil error, no worker ever holds
or computes a task, and a terminal (returned) configuration is reachable. -/
theorem poolRun_empty (T R : Type) [Inhabited R] (W : Nat) (fn : T → R)
    (c : PConfig T R) (h : PReach W ([] : List T) fn c) :
    (∀ v, c.retval = some v → v = (some ([] : List R), none)) ∧
    (∀ w s, c.workers.get? w = some s → s = .idle ∨ s = .done) ∧
    (∃ c2 : PConfig T R, PReach W ([] : List T) fn c2 ∧
      c2.retval = some (some [], none)) := by
  obtain ⟨-, -, -, -, hws, hrv⟩ := emptyInv_reach h
  refine ⟨hrv, hws, ?_⟩
  refine ⟨_, Relation.ReflTransGen.single
    (PStep.collectFinish (initConfig W ([] : List T)) rfl rfl), rfl⟩

/-- Witness for `poolRun_empty` at two workers on the empty `Nat` list. -/
theorem poolRun_empty_witness :
    (some ([] : List Nat), (none : Option RunError)) = (some [], none) :=
  (poolRun_empty Nat Nat 2 (fun x => x * x) emptyRetCfg emptyRetTrace).1 _ rfl

/-- **C6** (corrected).  In every execution of pool.go's `Run`: the task
channel is closed only by the dispatcher completing all inputs (so when the
dispatcher stopped early on cancellation, the channel is *not* closed — the
dispatcher `return`s without `close(tasks)`), and the hand-off sequence is
exactly the indexed prefix of the inputs in their original order. -/
theorem dispatcher_discipline (T R : Type) [Inhabited R] (W : Nat) (inputs : List T)
    (fn : T → R) (c : PConfig T R) (h : PReach W inputs fn c) :
    (c.tasksClosed = true → c.dispatcher = .closedTasks ∧ c.fed = inputs.length) ∧
    (c.dispatcher = .aborted → c.tasksClosed = false) ∧
    c.dispLog.map Prod.fst = List.range c.fed ∧
    c.dispLog.map Prod.snd = inputs.take c.fed := by
  obtain ⟨-, hcl, hab, hlog1, hlog2⟩ := dispInv_reach h
  exact ⟨hcl, hab, hlog1, hlog2⟩

/-- Witness for `dispatcher_discipline` at the concrete aborted run on `[1]`. -/
theorem dispatcher_discipline_witness :
    cexAbortCfg.tasksClosed = false :=
  (dispatcher_discipline Nat Nat 1 [1] (fun x => x * x) cexAbortCfg poolAbortTrace).2.1 rfl

/-- **C6 counterexample**.  On inputs `[1]` the context fires while the
dispatcher is still feeding; the dispatcher takes its `ctx.Done()` branch and
returns: in the reached configuration the dispatcher goroutine has terminated
(`aborted`) and the task channel is *not* closed — refuting the claim that the
dispatcher also closes the channel when it stops early on cancellation. -/
theorem dispatcher_counterexample :
    PReach 1 [1] (fun x => x * x) cexAbortCfg ∧
    cexAbortCfg.dispatcher = DispState.aborted ∧ cexAbortCfg.tasksClosed = false :=
  ⟨poolAbortTrace, rfl, rfl⟩

end GoHPC
